import Mathlib

/-!
# Verification of the raytracer core (BVH, path integrator, tile scheduler)

Shallow embedding of the Rust source of the `raytracer` repository.

Modeling conventions:
* `f64` scalars are modeled as exact rational numbers (`ℚ`).  Where the code
  deliberately relies on IEEE-754 special values (the slab ray/box test divides
  by zero direction components and lets infinities and NaNs propagate through
  `min`/`max`), scalars are modeled by the type `F` below: `ℚ` extended with
  `+∞`, `-∞` and `NaN`, with Rust's `f64::min`/`f64::max` semantics (a NaN
  argument is ignored).  Rounding of `f64` arithmetic is not modeled; all
  arithmetic is exact.  The single zero of `ℚ` plays the role of IEEE `+0.0`.
* `f64::sqrt` is modeled by `ratSqrt`, an exact monotone under-approximation of
  the real square root that is exact on perfect squares (the concrete inputs
  evaluated in this file are chosen so that the square roots are exact).
* Rust `Range<f64>` is modeled by `QRange` (both endpoints finite: the ranges
  stored in bounding boxes) and `FRange` (endpoints possibly infinite: the
  parameter ranges threaded through `hit`, which start at `1e-6..INFINITY`).
-/

/-- `f64` values as used by the slab test: a rational, `+∞`, `-∞`, or `NaN`. -/
inductive F where
  | nan : F
  | ninf : F
  | pinf : F
  | fin : ℚ → F
deriving DecidableEq

namespace F

/-- IEEE `<` on `F`: any comparison with `NaN` is false. -/
def blt : F → F → Bool
  | .ninf, .pinf => true
  | .ninf, .fin _ => true
  | .fin _, .pinf => true
  | .fin a, .fin b => decide (a < b)
  | _, _ => false

/-- IEEE `<=` on `F`: any comparison with `NaN` is false. -/
def ble : F → F → Bool
  | .ninf, .ninf => true
  | .pinf, .pinf => true
  | .ninf, .pinf => true
  | .ninf, .fin _ => true
  | .fin _, .pinf => true
  | .fin a, .fin b => decide (a ≤ b)
  | _, _ => false

/-- Rust `f64::min`: returns the other argument when one is `NaN`. -/
def rmin : F → F → F
  | .nan, b => b
  | a, .nan => a
  | a, b => if ble a b then a else b

/-- Rust `f64::max`: returns the other argument when one is `NaN`. -/
def rmax : F → F → F
  | .nan, b => b
  | a, .nan => a
  | a, b => if ble a b then b else a

/-- Extract the rational from a finite value (callers only use it on `fin`). -/
def toRat : F → ℚ
  | .fin q => q
  | _ => 0

end F

/-- IEEE product of a finite value and an `F` value: `0 * ±∞ = NaN`. -/
def mulQF (q : ℚ) : F → F
  | .nan => .nan
  | .fin b => .fin (q * b)
  | .pinf => if 0 < q then .pinf else if q < 0 then .ninf else .nan
  | .ninf => if 0 < q then .ninf else if q < 0 then .pinf else .nan

/-- IEEE reciprocal `1.0 / d` of a finite `d`; division by (positive) zero
yields `+∞`. -/
def invQ (d : ℚ) : F :=
  if d = 0 then .pinf else .fin d⁻¹

/-- IEEE quotient of two finite values: `x / 0` is `±∞` for `x ≠ 0` and
`0 / 0` is `NaN`. -/
def fdivQ (num den : ℚ) : F :=
  if den = 0 then
    if num = 0 then .nan else if 0 < num then .pinf else .ninf
  else .fin (num / den)

namespace F

theorem blt_fin_fin {a b : ℚ} : blt (fin a) (fin b) = decide (a < b) := rfl

theorem ble_fin_fin {a b : ℚ} : ble (fin a) (fin b) = decide (a ≤ b) := rfl

theorem blt_irrefl (a : F) : blt a a = false := by
  cases a <;> simp [blt]

theorem ble_refl_of_ne_nan {a : F} (h : a ≠ nan) : ble a a = true := by
  cases a <;> simp_all [ble]

theorem ne_nan_of_blt {a b : F} (h : blt a b = true) : a ≠ nan ∧ b ≠ nan := by
  cases a <;> cases b <;> simp_all [blt]

theorem ne_nan_of_ble {a b : F} (h : ble a b = true) : a ≠ nan ∧ b ≠ nan := by
  cases a <;> cases b <;> simp_all [ble]

theorem ble_of_blt {a b : F} (h : blt a b = true) : ble a b = true := by
  cases a <;> cases b <;> simp_all [blt, ble]; exact le_of_lt h

theorem blt_asymm {a b : F} (h : blt a b = true) : blt b a = false := by
  cases a <;> cases b <;> simp_all [blt]; exact le_of_lt h

/-- Totality on non-NaN values: if not `a ≤ b` then `b < a`. -/
theorem blt_of_not_ble {a b : F} (ha : a ≠ nan) (hb : b ≠ nan)
    (h : ble a b = false) : blt b a = true := by
  cases a <;> cases b <;> simp_all [blt, ble]

theorem not_ble_of_blt {a b : F} (h : blt a b = true) : ble b a = false := by
  cases a <;> cases b <;> simp_all [blt, ble]

theorem blt_trans {a b c : F} (h₁ : blt a b = true) (h₂ : blt b c = true) :
    blt a c = true := by
  cases a <;> cases b <;> cases c <;> simp_all [blt]
  exact lt_trans h₁ h₂

theorem blt_of_ble_of_blt {a b c : F} (h₁ : ble a b = true)
    (h₂ : blt b c = true) : blt a c = true := by
  cases a <;> cases b <;> cases c <;> simp_all [ble, blt]
  exact lt_of_le_of_lt h₁ h₂

theorem blt_of_blt_of_ble {a b c : F} (h₁ : blt a b = true)
    (h₂ : ble b c = true) : blt a c = true := by
  cases a <;> cases b <;> cases c <;> simp_all [ble, blt]
  exact lt_of_lt_of_le h₁ h₂

theorem ble_trans {a b c : F} (h₁ : ble a b = true) (h₂ : ble b c = true) :
    ble a c = true := by
  cases a <;> cases b <;> cases c <;> simp_all [ble]
  exact le_trans h₁ h₂

theorem rmin_def (a b : F) : rmin a b =
    if a = nan then b else if b = nan then a
    else if ble a b then a else b := by
  cases a <;> cases b <;> simp [rmin]

theorem rmax_def (a b : F) : rmax a b =
    if a = nan then b else if b = nan then a
    else if ble a b then b else a := by
  cases a <;> cases b <;> simp [rmax]

theorem rmin_ne_nan {a b : F} (ha : a ≠ nan) : rmin a b ≠ nan := by
  rw [rmin_def]
  split
  · simp_all
  · split
    · exact ha
    · split <;> simp_all

theorem rmax_ne_nan {a b : F} (ha : a ≠ nan) : rmax a b ≠ nan := by
  rw [rmax_def]
  split
  · simp_all
  · split
    · exact ha
    · split <;> simp_all

theorem rmin_nan_left (b : F) : rmin nan b = b := by simp [rmin_def]

theorem rmax_nan_left (b : F) : rmax nan b = b := by simp [rmax_def]

theorem rmin_nan_right (a : F) : rmin a nan = a := by
  rw [rmin_def]; split <;> simp_all

theorem rmax_nan_right (a : F) : rmax a nan = a := by
  rw [rmax_def]; split <;> simp_all

/-- `b ≤ max a b` for non-NaN `b` (whatever `a` is). -/
theorem ble_rmax_right {a b : F} (hb : b ≠ nan) : ble b (rmax a b) = true := by
  by_cases ha : a = nan
  · simp [rmax_def, ha, ble_refl_of_ne_nan hb]
  · by_cases hab : ble a b = true
    · simp [rmax_def, ha, hb, hab, ble_refl_of_ne_nan hb]
    · have h := blt_of_not_ble ha hb (by simpa using hab)
      simp [rmax_def, ha, hb, hab, ble_of_blt h]

/-- `a ≤ max a b` for non-NaN `a` (whatever `b` is). -/
theorem ble_rmax_left {a b : F} (ha : a ≠ nan) : ble a (rmax a b) = true := by
  rw [rmax_def, if_neg ha]
  split
  · exact ble_refl_of_ne_nan ha
  · split
    · assumption
    · exact ble_refl_of_ne_nan ha

/-- `min a b ≤ b` for non-NaN `b` (whatever `a` is). -/
theorem rmin_ble_right {a b : F} (hb : b ≠ nan) : ble (rmin a b) b = true := by
  by_cases ha : a = nan
  · simp [rmin_def, ha, ble_refl_of_ne_nan hb]
  · by_cases hab : ble a b = true
    · simp [rmin_def, ha, hb, hab]
    · simp [rmin_def, ha, hb, hab, ble_refl_of_ne_nan hb]

/-- `min a b ≤ a` for non-NaN `a` (whatever `b` is). -/
theorem rmin_ble_left {a b : F} (ha : a ≠ nan) : ble (rmin a b) a = true := by
  by_cases hb : b = nan
  · simp [rmin_def, ha, hb, ble_refl_of_ne_nan ha]
  · by_cases hab : ble a b = true
    · simp [rmin_def, ha, hb, hab, ble_refl_of_ne_nan ha]
    · have h := blt_of_not_ble ha hb (by simpa using hab)
      simp [rmin_def, ha, hb, hab, ble_of_blt h]

/-- The max of two values that are `< c` (or NaN) stays `< c`. -/
theorem rmax_blt {a b c : F} (hb : blt b c = true)
    (ha : a = nan ∨ blt a c = true) : blt (rmax a b) c = true := by
  rcases ha with ha | ha
  · subst ha; simpa [rmax_nan_left] using hb
  · cases a <;> cases b <;> simp_all [rmax] <;> split <;> simp_all

/-- The max of two values that are `≤ c` (or NaN) stays `≤ c`. -/
theorem rmax_ble {a b c : F} (hb : ble b c = true)
    (ha : a = nan ∨ ble a c = true) : ble (rmax a b) c = true := by
  rcases ha with ha | ha
  · subst ha; simpa [rmax_nan_left] using hb
  · cases a <;> cases b <;> simp_all [rmax] <;> split <;> simp_all

/-- The min of two values that are `> c` (or NaN) stays `> c`. -/
theorem blt_rmin {a b c : F} (hb : blt c b = true)
    (ha : a = nan ∨ blt c a = true) : blt c (rmin a b) = true := by
  rcases ha with ha | ha
  · subst ha; simpa [rmin_nan_left] using hb
  · cases a <;> cases b <;> simp_all [rmin] <;> split <;> simp_all

/-- The min of two values that are `≥ c` (or NaN) stays `≥ c`. -/
theorem ble_rmin {a b c : F} (hb : ble c b = true)
    (ha : a = nan ∨ ble c a = true) : ble c (rmin a b) = true := by
  rcases ha with ha | ha
  · subst ha; simpa [rmin_nan_left] using hb
  · cases a <;> cases b <;> simp_all [rmin] <;> split <;> simp_all

end F

/-! ## Square root

`ratSqrt` models `f64::sqrt` in the exact-arithmetic idealization: it is an
under-approximation of the real square root (`(ratSqrt q)^2 <= q`) that is
exact whenever the argument is a rational perfect square; the concrete inputs
evaluated in this file are chosen so that their square roots are exact. -/

/-- Fuel-driven linear floor square root on `ℕ` (kernel-reducible, unlike
`Nat.sqrt` of this toolchain). -/
def isqrtGo (n : ℕ) : ℕ → ℕ → ℕ
  | 0, k => k
  | fuel + 1, k => if (k + 1) * (k + 1) ≤ n then isqrtGo n fuel (k + 1) else k

/-- Floor square root on `ℕ`. -/
def isqrt (n : ℕ) : ℕ := isqrtGo n n 0

theorem isqrtGo_sq_le (n : ℕ) :
    ∀ (fuel k : ℕ), k * k ≤ n → isqrtGo n fuel k * isqrtGo n fuel k ≤ n := by
  intro fuel
  induction fuel with
  | zero => intro k hk; simpa [isqrtGo] using hk
  | succ f ih =>
    intro k hk
    by_cases h : (k + 1) * (k + 1) ≤ n
    · simpa [isqrtGo, h] using ih (k + 1) h
    · simpa [isqrtGo, h] using hk

theorem isqrt_sq_le (n : ℕ) : isqrt n * isqrt n ≤ n :=
  isqrtGo_sq_le n n 0 (by simp)

/-- Rational square root: exact on perfect squares, an under-approximation
otherwise (and 0 on negative input). -/
def ratSqrt (q : ℚ) : ℚ :=
  (isqrt (q.num.toNat * q.den) : ℚ) / (q.den : ℚ)

theorem ratSqrt_nonneg (q : ℚ) : 0 ≤ ratSqrt q := by
  unfold ratSqrt
  positivity

theorem ratSqrt_sq_le {q : ℚ} (hq : 0 ≤ q) : (ratSqrt q) ^ 2 ≤ q := by
  unfold ratSqrt
  have hden : (0 : ℚ) < (q.den : ℚ) := by exact_mod_cast q.pos
  have hnum : ((q.num.toNat : ℚ)) = (q.num : ℚ) := by
    exact_mod_cast Int.toNat_of_nonneg (Rat.num_nonneg.2 hq)
  have h1 : ((isqrt (q.num.toNat * q.den) : ℚ)) ^ 2 ≤
      (q.num.toNat : ℚ) * (q.den : ℚ) := by
    have h2 : (isqrt (q.num.toNat * q.den)) ^ 2 ≤ q.num.toNat * q.den := by
      simpa [pow_two] using isqrt_sq_le (q.num.toNat * q.den)
    exact_mod_cast h2
  rw [div_pow, div_le_iff₀ (by positivity)]
  have h0 : q * ((q.den : ℚ)) = (q.num : ℚ) := by
    have h := Rat.num_div_den q
    rw [div_eq_iff (ne_of_gt hden)] at h
    linarith [h]
  have hqd : q * ((q.den : ℚ)) ^ 2 = (q.num : ℚ) * (q.den : ℚ) := by
    calc q * ((q.den : ℚ)) ^ 2 = (q * (q.den : ℚ)) * (q.den : ℚ) := by ring
      _ = (q.num : ℚ) * (q.den : ℚ) := by rw [h0]
  rw [hqd, ← hnum]
  exact h1

/-! ## Vectors, colors, rays (`src/vec3.rs`, `src/color.rs`, `src/ray.rs`) -/

/-- `Vec3` (also used as `Point3`), with exact rational components. -/
structure Vec3 where
  x : ℚ
  y : ℚ
  z : ℚ
deriving DecidableEq

namespace Vec3

def new (x y z : ℚ) : Vec3 := ⟨x, y, z⟩

def zero : Vec3 := ⟨0, 0, 0⟩

instance : Add Vec3 := ⟨fun a b => ⟨a.x + b.x, a.y + b.y, a.z + b.z⟩⟩
instance : Sub Vec3 := ⟨fun a b => ⟨a.x - b.x, a.y - b.y, a.z - b.z⟩⟩
instance : Neg Vec3 := ⟨fun a => ⟨-a.x, -a.y, -a.z⟩⟩
instance : SMul ℚ Vec3 := ⟨fun q a => ⟨q * a.x, q * a.y, q * a.z⟩⟩
instance : HDiv Vec3 ℚ Vec3 := ⟨fun a q => ⟨a.x / q, a.y / q, a.z / q⟩⟩

def dot (a b : Vec3) : ℚ := a.x * b.x + a.y * b.y + a.z * b.z

def cross (a b : Vec3) : Vec3 :=
  ⟨a.y * b.z - a.z * b.y, a.z * b.x - a.x * b.z, a.x * b.y - a.y * b.x⟩

def length_squared (a : Vec3) : ℚ := a.x ^ 2 + a.y ^ 2 + a.z ^ 2

def length (a : Vec3) : ℚ := ratSqrt a.length_squared

def unit_vector (a : Vec3) : Vec3 := a / a.length

def reflect (v normal : Vec3) : Vec3 := v - (2 * v.dot normal) • normal

def distance (a b : Vec3) : ℚ := (a - b).length

/-- Component along axis `n` (`x` unless `n` is 1 or 2), mirroring
`AABB::axis`; used for `ray.origin[a]` / `ray.direction[a]` in the slab
test. -/
def axis (a : Vec3) (n : ℕ) : ℚ :=
  if n = 1 then a.y else if n = 2 then a.z else a.x

theorem length_squared_nonneg (a : Vec3) : 0 ≤ a.length_squared := by
  unfold length_squared
  positivity

theorem add_def (a b : Vec3) : a + b = ⟨a.x + b.x, a.y + b.y, a.z + b.z⟩ := rfl
theorem sub_def (a b : Vec3) : a - b = ⟨a.x - b.x, a.y - b.y, a.z - b.z⟩ := rfl
theorem smul_def (q : ℚ) (a : Vec3) : q • a = ⟨q * a.x, q * a.y, q * a.z⟩ := rfl

end Vec3

/-- Linear RGB color with exact rational channels. -/
structure Color where
  r : ℚ
  g : ℚ
  b : ℚ
deriving DecidableEq

namespace Color

def new (r g b : ℚ) : Color := ⟨r, g, b⟩

def black : Color := ⟨0, 0, 0⟩

def white : Color := ⟨1, 1, 1⟩

instance : Add Color := ⟨fun a b => ⟨a.r + b.r, a.g + b.g, a.b + b.b⟩⟩
instance : Mul Color := ⟨fun a b => ⟨a.r * b.r, a.g * b.g, a.b * b.b⟩⟩
instance : SMul ℚ Color := ⟨fun q a => ⟨q * a.r, q * a.g, q * a.b⟩⟩

end Color

/-- A ray: origin, direction and time-of-cast (`src/ray.rs`). -/
structure Ray where
  origin : Vec3
  direction : Vec3
  time : ℚ
deriving DecidableEq

namespace Ray

def new (origin direction : Vec3) (time : ℚ) : Ray := ⟨origin, direction, time⟩

/-- `Ray::at` (`at` is a Lean keyword). -/
def atP (r : Ray) (t : ℚ) : Vec3 := r.origin + t • r.direction

end Ray

/-! ## Ranges (`src/range.rs`)

Rust's `Range<f64>` is a pair of endpoints; `QRange` is the finite variant
(bounding-box axes), `FRange` the variant with possibly infinite endpoints
(`hit` parameter ranges, slab results).  The field `stop` models the Rust
field `end` (a keyword in Lean). -/

/-- `f64::min` on finite values (kernel-reducible, unlike Mathlib's `min`
on `ℚ`). -/
def qmin (a b : ℚ) : ℚ := if a ≤ b then a else b

/-- `f64::max` on finite values. -/
def qmax (a b : ℚ) : ℚ := if a ≤ b then b else a

theorem qmin_eq_min (a b : ℚ) : qmin a b = min a b := (min_def a b).symm

theorem qmax_eq_max (a b : ℚ) : qmax a b = max a b := by
  rw [max_def, qmax]

structure QRange where
  start : ℚ
  stop : ℚ
deriving DecidableEq

namespace QRange

/-- `RangeExtensions::middle`. -/
def middle (r : QRange) : ℚ := (r.start + r.stop) / 2

/-- `Expandable::union`. -/
def union (a b : QRange) : QRange := ⟨qmin a.start b.start, qmax a.stop b.stop⟩

end QRange

structure FRange where
  start : F
  stop : F
deriving DecidableEq

namespace FRange

/-- `Membership::exclusive`: `self.start < value && value < self.end`. -/
def exclusive (r : FRange) (value : F) : Bool :=
  F.blt r.start value && F.blt value r.stop

/-- `Membership::inclusive`: `self.start <= value && value <= self.end`. -/
def inclusive (r : FRange) (value : F) : Bool :=
  F.ble r.start value && F.ble value r.stop

end FRange

/-! ## Axis-aligned bounding boxes (`src/hittable/aabb.rs`) -/

structure AABB where
  x : QRange
  y : QRange
  z : QRange
deriving DecidableEq

namespace AABB

/-- `AABB::new` (also the `Default`): the degenerate box `0.0..0.0` on every
axis. -/
def new : AABB := ⟨⟨0, 0⟩, ⟨0, 0⟩, ⟨0, 0⟩⟩

/-- `AABB::from_vecs`. -/
def from_vecs (start stop : Vec3) : AABB :=
  ⟨⟨qmin start.x stop.x, qmax start.x stop.x⟩,
   ⟨qmin start.y stop.y, qmax start.y stop.y⟩,
   ⟨qmin start.z stop.z, qmax start.z stop.z⟩⟩

/-- `AABB::from_boxes`. -/
def from_boxes (a b : AABB) : AABB :=
  ⟨a.x.union b.x, a.y.union b.y, a.z.union b.z⟩

/-- `AABB::axis`. -/
def axis (bb : AABB) (n : ℕ) : QRange :=
  if n = 1 then bb.y else if n = 2 then bb.z else bb.x

/-- One iteration of the slab loop in `AABB::hit`: axis `a`, running interval
`acc`; returns `none` for the loop's early `return None`. -/
def slab (bb : AABB) (ray : Ray) (a : ℕ) (acc : F × F) : Option (F × F) :=
  let inverse_direction := invQ (ray.direction.axis a)
  let orig := ray.origin.axis a
  let ax := bb.axis a
  let t0 := mulQF (ax.start - orig) inverse_direction
  let t1 := mulQF (ax.stop - orig) inverse_direction
  let s := if F.blt inverse_direction (F.fin 0) then (t1, t0) else (t0, t1)
  let raymin := F.rmax s.1 acc.1
  let raymax := F.rmin s.2 acc.2
  if F.ble raymax raymin then none else some (raymin, raymax)

/-- `AABB::hit`: the slab method, starting from `(-∞, +∞)` (note: the ray's
parameter is *not* clipped to `t ≥ 0`). -/
def hit (bb : AABB) (ray : Ray) : Option FRange :=
  match slab bb ray 0 (F.ninf, F.pinf) with
  | none => none
  | some acc₁ =>
    match slab bb ray 1 acc₁ with
    | none => none
    | some acc₂ =>
      match slab bb ray 2 acc₂ with
      | none => none
      | some acc₃ => some ⟨acc₃.1, acc₃.2⟩

end AABB

/-! ## Hittables (`src/hittable/geometry.rs`, `src/hittable/containers.rs`)

The program's closed world of intersectables (trait `Hittable` has exactly the
implementors `Sphere`, `MovingSphere`, `HittableList`, `BVHNode`) is modeled
as the inductive `Obj`.  A `MovingSphere` stores a `Sphere` plus a
destination; it is flattened here to its fields.  The shared `Arc<dyn
Material>` is modeled by an arena index (`ℕ`): two records carry the same
material exactly when the indices agree.

`Sphere::get_sphere_uv` computes texture coordinates with `acos`/`atan2`/`π`,
which have no exact rational embedding; it is kept abstract as the parameter
`uv` below (no claim mentions the `u`/`v` fields). -/

structure HitRecord where
  point : Vec3
  normal : Vec3
  material : ℕ
  t : F
  u : ℚ
  v : ℚ
  front_face : Bool
deriving DecidableEq

/-- `Sphere::calculate_hit` (also used by `MovingSphere::hit` with the
interpolated center).  `radius`/`material` are the `self` fields it reads;
`center` is the explicit center argument. -/
def Sphere.calculate_hit (uv : Vec3 → ℚ × ℚ) (radius : ℚ) (material : ℕ)
    (ray : Ray) (ray_trange : FRange) (center : Vec3) : Option HitRecord :=
  let sphere_to_ray := ray.origin - center
  let squared_raydir_magnitude := ray.direction.length_squared
  let alignment := sphere_to_ray.dot ray.direction
  let surface_dist := sphere_to_ray.length_squared - radius ^ 2
  let discriminant := alignment ^ 2 - squared_raydir_magnitude * surface_dist
  if discriminant < 0 then none
  else
    let sqrtd := ratSqrt discriminant
    let root1 := fdivQ (-alignment - sqrtd) squared_raydir_magnitude
    let root2 := fdivQ (-alignment + sqrtd) squared_raydir_magnitude
    match
      if ray_trange.exclusive root1 then some root1
      else if ray_trange.exclusive root2 then some root2
      else none with
    | none => none
    | some root =>
      let intersection_point := ray.atP root.toRat
      let outward_normal := (intersection_point - center) / radius
      let front_face := decide (ray.direction.dot outward_normal < 0)
      some
        { point := intersection_point
          normal := (if front_face then (1 : ℚ) else -1) • outward_normal
          material := material
          t := root
          u := (uv outward_normal).1
          v := (uv outward_normal).2
          front_face := front_face }

/-- The closed world of `dyn Hittable` implementors. -/
inductive Obj where
  | sphere (center : Vec3) (radius : ℚ) (material : ℕ)
  | msphere (center : Vec3) (radius : ℚ) (material : ℕ) (destination : Vec3)
  | list (objects : List Obj) (bounding_box : AABB)
  | node (left right : Obj) (bounding_box : AABB)

namespace Obj

/-- `Hittable::bounding_box`.  For spheres the stored box is the one computed
by `Sphere::new` / `MovingSphere::new`; `list` and `node` return their stored
box. -/
def bounding_box : Obj → AABB
  | sphere c r _ =>
    AABB.from_vecs (c - Vec3.new r r r) (c + Vec3.new r r r)
  | msphere c r _ d =>
    AABB.from_boxes
      (AABB.from_vecs (c - Vec3.new r r r) (c + Vec3.new r r r))
      (AABB.from_vecs (d - Vec3.new r r r) (d + Vec3.new r r r))
  | list _ bb => bb
  | node _ _ bb => bb

end Obj

mutual

/-- `Hittable::hit` for each implementor (`Sphere::hit`, `MovingSphere::hit`,
`HittableList::hit`, `BVHNode::hit`). -/
def Obj.hit (uv : Vec3 → ℚ × ℚ) (o : Obj) (ray : Ray) (trange : FRange) :
    Option HitRecord :=
  match o with
  | .sphere c r m => Sphere.calculate_hit uv r m ray trange c
  | .msphere c r m d =>
    Sphere.calculate_hit uv r m ray trange
      ((1 - ray.time) • c + ray.time • d)
  | .list objs _ => Obj.hitList uv objs ray trange.start trange.stop none
  | .node l r bb =>
    if (bb.hit ray).isNone then none
    else
      match Obj.hit uv l ray trange with
      | some rec1 =>
        match Obj.hit uv r ray ⟨trange.start, rec1.t⟩ with
        | some rec2 => some rec2
        | none => some rec1
      | none => Obj.hit uv r ray trange

/-- The loop body of `HittableList::hit`: fold over the objects, shrinking
`closest_so_far` on every hit. -/
def Obj.hitList (uv : Vec3 → ℚ × ℚ) (objs : List Obj) (ray : Ray)
    (start closest_so_far : F) (result : Option HitRecord) :
    Option HitRecord :=
  match objs with
  | [] => result
  | o :: rest =>
    match Obj.hit uv o ray ⟨start, closest_so_far⟩ with
    | some hit_record =>
      Obj.hitList uv rest ray start hit_record.t (some hit_record)
    | none => Obj.hitList uv rest ray start closest_so_far result

end

/-- `HittableList::hit` (the stored bounding box plays no role). -/
def HittableList.hit (uv : Vec3 → ℚ × ℚ) (objects : List Obj) (ray : Ray)
    (ray_trange : FRange) : Option HitRecord :=
  Obj.hitList uv objects ray ray_trange.start ray_trange.stop none

/-- The two quadratic roots that `Sphere::calculate_hit` tries, in order; the
candidate intersection parameters of a sphere. -/
def sphereRoots (center : Vec3) (radius : ℚ) (ray : Ray) : List F :=
  let sphere_to_ray := ray.origin - center
  let squared_raydir_magnitude := ray.direction.length_squared
  let alignment := sphere_to_ray.dot ray.direction
  let surface_dist := sphere_to_ray.length_squared - radius ^ 2
  let discriminant := alignment ^ 2 - squared_raydir_magnitude * surface_dist
  if discriminant < 0 then []
  else
    [fdivQ (-alignment - ratSqrt discriminant) squared_raydir_magnitude,
     fdivQ (-alignment + ratSqrt discriminant) squared_raydir_magnitude]

mutual

/-- All candidate intersection parameters of an object: the union of the
sphere roots of its leaves. -/
def Obj.cands (o : Obj) (ray : Ray) : List F :=
  match o with
  | .sphere c r _ => sphereRoots c r ray
  | .msphere c r _ d =>
    sphereRoots ((1 - ray.time) • c + ray.time • d) r ray
  | .list objs _ => Obj.candsList objs ray
  | .node l r _ => Obj.cands l ray ++ Obj.cands r ray

def Obj.candsList (objs : List Obj) (ray : Ray) : List F :=
  match objs with
  | [] => []
  | o :: rest => Obj.cands o ray ++ Obj.candsList rest ray

end

/-! ## BVH builder (`BVHNode::from_vec` / `BVHNode::inner_from_vec`,
`src/hittable/containers.rs`)

The Rust builder destructively pops from the end of a `Vec`; the model passes
the list explicitly and returns the tree together with the remaining list.
The recursion is driven by a fuel parameter (a modeling artifact: the Rust
recursion terminates because every call pops its whole slice; the fuel is
shown sufficient in the lemmas below and `from_vec` supplies `objects.length`,
which always is). -/

/-- IEEE subtraction on `F` (used by the axis-spread fold, whose running
maximum starts at `NEG_INFINITY`). -/
def F.sub : F → F → F
  | .nan, _ => .nan
  | _, .nan => .nan
  | .pinf, .pinf => .nan
  | .ninf, .ninf => .nan
  | .pinf, _ => .pinf
  | .ninf, _ => .ninf
  | .fin _, .pinf => .ninf
  | .fin _, .ninf => .pinf
  | .fin a, .fin b => .fin (a - b)

/-- The inner fold of the axis-selection heuristic: the running
`(min, max)` of the bounding-box centers of `objs` along axis `axid`,
starting from `(INFINITY, NEG_INFINITY)`. -/
def middlesMinMax (objs : List Obj) (axid : ℕ) : F × F :=
  objs.foldl
    (fun mm o =>
      (F.rmin mm.1 (F.fin ((o.bounding_box.axis axid).middle)),
       F.rmax mm.2 (F.fin ((o.bounding_box.axis axid).middle))))
    (F.pinf, F.ninf)

/-- The axis-selection fold in `inner_from_vec`: the axis with the greatest
spread of bounding-box centers. -/
def chooseAxis (slice : List Obj) : ℕ :=
  ((List.range 3).foldl
    (fun acc axid =>
      let mm := middlesMinMax slice axid
      let diff := F.sub mm.2 mm.1
      if F.blt acc.2 diff then (axid, diff) else acc)
    ((0 : ℕ), F.ninf)).1

/-- The mean of the bounding-box centers along `axid`. -/
def middlesMean (slice : List Obj) (axid : ℕ) : ℚ :=
  (slice.map (fun o => (o.bounding_box.axis axid).middle)).sum
    / (slice.length : ℚ)

/-- `BVHNode::box_compare` as the `≤` underlying `sort_by` (`f64::total_cmp`
on exact rationals is the usual total order). -/
def boxLe (axid : ℕ) (a b : Obj) : Bool :=
  decide ((a.bounding_box.axis axid).middle ≤ (b.bounding_box.axis axid).middle)

/-- The split position: the first sorted position whose center is `≥ mean`
(`length / 2` if none), clamped to at least 1. -/
def splitIndex (sortedSlice : List Obj) (axid : ℕ) (mean : ℚ) (length : ℕ) :
    ℕ :=
  (((sortedSlice.map (fun o => (o.bounding_box.axis axid).middle)).findIdx?
      (fun x => decide (x ≥ mean))).getD (length / 2)).max 1

/-- `BVHNode::inner_from_vec`.  Returns the built tree and the remaining
list (the Rust code mutates `objects` in place; every element at index
`≥ start` is popped).  Fuel 0 is never reached when called through
`from_vec`. -/
def BVHNode.inner_from_vec : ℕ → List Obj → ℕ → ℕ → Obj × List Obj
  | 0, objects, _, _ => (Obj.list [] AABB.new, objects)
  | fuel + 1, objects, start, depth =>
    let length := objects.length - start
    if length = 1 then
      match objects.getLast? with
      | some o => (o, objects.dropLast)
      | none => (Obj.list [] AABB.new, objects)
    else if length = 2 then
      match objects.getLast?, objects.dropLast.getLast? with
      | some left, some right =>
        (Obj.node left right
          (AABB.from_boxes left.bounding_box right.bounding_box),
         objects.dropLast.dropLast)
      | _, _ => (Obj.list [] AABB.new, objects)
    else
      let axis := chooseAxis (objects.drop start)
      let mean := middlesMean (objects.drop start) axis
      let sorted := objects.take start ++ (objects.drop start).mergeSort (boxLe axis)
      let split := splitIndex (sorted.drop start) axis mean length
      let res_r := BVHNode.inner_from_vec fuel sorted (start + split) (depth + 1)
      let res_l := BVHNode.inner_from_vec fuel res_r.2 start (depth + 1)
      (Obj.node res_l.1 res_r.1
        (AABB.from_boxes res_l.1.bounding_box res_r.1.bounding_box),
       res_l.2)

/-- `BVHNode::from_vec`. -/
def BVHNode.from_vec (objects : List Obj) : Obj :=
  (BVHNode.inner_from_vec objects.length objects 0 0).1

/-- The length-2 branch of the older builder `BVHNode::from_vec` in
`src/hittable/mod.rs`, which—unlike `inner_from_vec` in
`src/hittable/containers.rs`—orders the two popped children by
`box_compare` along `axis` before building the node. -/
def BVHNode.from_vec_two_mod (axis : ℕ) (objects : List Obj) : Option Obj :=
  match objects.getLast?, objects.dropLast.getLast? with
  | some left, some right =>
    let bounding_box := AABB.from_boxes left.bounding_box right.bounding_box
    let left_lt_right :=
      decide ((left.bounding_box.axis axis).middle
        < (right.bounding_box.axis axis).middle)
    some (if left_lt_right then Obj.node left right bounding_box
      else Obj.node right left bounding_box)
  | _, _ => none

/-! ## `HittableList` construction (`HittableList::add`) -/

/-- One `HittableList::add` step on the `(objects, bounding_box)` state:
the box is unioned before the push. -/
def HittableList.add (l : List Obj × AABB) (object : Obj) :
    List Obj × AABB :=
  (l.1 ++ [object], AABB.from_boxes l.2 object.bounding_box)

/-- A `HittableList` built by repeated `add` from the `Default` state
(empty vector, degenerate `0.0..0.0` box). -/
def HittableList.build (objects : List Obj) : List Obj × AABB :=
  objects.foldl HittableList.add ([], AABB.new)

/-! ## Structural predicates used by the BVH theorems -/

/-- `a` is contained in `b`, axis-wise on both endpoints. -/
def AABB.subBox (a b : AABB) : Prop :=
  b.x.start ≤ a.x.start ∧ a.x.stop ≤ b.x.stop ∧
  b.y.start ≤ a.y.start ∧ a.y.stop ≤ b.y.stop ∧
  b.z.start ≤ a.z.start ∧ a.z.stop ≤ b.z.stop

mutual

/-- Every `node` in sight stores exactly the union of its children's boxes. -/
def Obj.nodeBoxOk : Obj → Prop
  | .sphere _ _ _ => True
  | .msphere _ _ _ _ => True
  | .list objs _ => Obj.nodeBoxOkList objs
  | .node l r bb =>
    bb = AABB.from_boxes l.bounding_box r.bounding_box
      ∧ Obj.nodeBoxOk l ∧ Obj.nodeBoxOk r

def Obj.nodeBoxOkList : List Obj → Prop
  | [] => True
  | o :: rest => Obj.nodeBoxOk o ∧ Obj.nodeBoxOkList rest

end

mutual

/-- Well-formedness for the BVH/linear-scan equivalence: spheres have nonzero
radius, and every aggregate's stored box contains its members' boxes. -/
def Obj.wf : Obj → Prop
  | .sphere _ r _ => r ≠ 0
  | .msphere _ r _ _ => r ≠ 0
  | .list objs bb => Obj.wfList objs bb
  | .node l r bb =>
    Obj.wf l ∧ Obj.wf r
      ∧ AABB.subBox l.bounding_box bb ∧ AABB.subBox r.bounding_box bb

def Obj.wfList : List Obj → AABB → Prop
  | [], _ => True
  | o :: rest, bb =>
    (Obj.wf o ∧ AABB.subBox o.bounding_box bb) ∧ Obj.wfList rest bb

end

/-! ## PRNG (`src/random.rs`): xoroshiro128+ with jump polynomials -/

/-- Truncate to 64 bits (`u64` wrapping arithmetic). -/
def wrap64 (n : ℕ) : ℕ := n % 2 ^ 64

/-- `u64::rotate_left` on a value `< 2^64`. -/
def rotl64 (x r : ℕ) : ℕ := ((x <<< r) % 2 ^ 64) ||| (x >>> (64 - r))

structure Rng where
  s0 : ℕ
  s1 : ℕ
deriving DecidableEq

namespace Rng

/-- `Rng::from_seed`. -/
def from_seed (seed0 seed1 : ℕ) : Rng := ⟨seed0, seed1⟩

/-- `Rng::next_u64`: returns the output and the advanced state. -/
def next_u64 (g : Rng) : ℕ × Rng :=
  let a := g.s0
  let b := g.s1
  let result := wrap64 (a + b)
  let c := Nat.xor b a
  (result, ⟨Nat.xor (Nat.xor (rotl64 a 24) c) (wrap64 (c <<< 16)), rotl64 c 37⟩)

/-- `Rng::jump_impl`. -/
def jump_impl (g : Rng) (jumper : List ℕ) : Rng :=
  let final := jumper.foldl
    (fun (st : (ℕ × ℕ) × Rng) j =>
      (List.range 64).foldl
        (fun (st : (ℕ × ℕ) × Rng) b =>
          let acc :=
            if Nat.land j (1 <<< b) ≠ 0 then
              (Nat.xor st.1.1 st.2.s0, Nat.xor st.1.2 st.2.s1)
            else st.1
          (acc, (st.2.next_u64).2))
        st)
    ((0, 0), g)
  ⟨final.1.1, final.1.2⟩

/-- `Rng::short_jump`. -/
def short_jump (g : Rng) : Rng :=
  g.jump_impl [0xdf900294d8f554a5, 0x170865df4b3201fc]

/-- `Rng::long_jump`. -/
def long_jump (g : Rng) : Rng :=
  g.jump_impl [0xd2a98b26625eee7b, 0xdddf9b1090aa7ac1]

end Rng

/-! ## Tile scheduling (`Camera::render`, `src/camera/mod.rs`) -/

/-- `usize::div_ceil`. -/
def divCeil (a b : ℕ) : ℕ := (a + b - 1) / b

/-- The generator built at the top of `Camera::render`: the fixed seed
`[123, 128]` advanced by one `short_jump`.  The `get_parameters` closure
clones this one generator for every tile. -/
def Camera.render_base_rng : Rng := (Rng.from_seed 123 128).short_jump

/-- The `get_parameters` closure in `Camera::render`: for a tile's linear
`index`, the PRNG handed to the worker together with the tile's
`(top_left, rect)`.  The returned generator is `rng.clone()` of the single
loop-invariant generator above — it does not depend on `index`. -/
def Camera.get_parameters (image_width image_height : ℕ) (index : ℕ) :
    Rng × (ℕ × ℕ) × (ℕ × ℕ) :=
  let rect : ℕ × ℕ := (32, 32)
  let bx := divCeil image_width rect.2
  let rect_y := index / bx
  let rect_x := index % bx
  let top_left := (rect_y * rect.1, rect_x * rect.2)
  let rect2 := (min rect.1 (image_height - top_left.1),
    min rect.2 (image_width - top_left.2))
  (Camera.render_base_rng, top_left, rect2)

/-! ## Camera configuration (`src/camera/builder.rs`)

`ImageSpec` lives in `src/camera/image.rs`, which is not present in the
source tree (only `builder.rs` uses it). -/

/-- Modelled from the spec: the image specification resolved from
width/height/aspect-ratio (the file `src/camera/image.rs` that defines
`ImageSpec` is missing; `CameraBuilder::build` only reads these three
fields). -/
structure ImageSpec where
  width : ℕ
  height : ℕ
  aspect_ratio : ℚ

/-- `PixelSampler`: stratified grid (`Uniform`) or uniform random
(`Random`).  In a built `Camera` the `Uniform` payload is the *square root*
of the requested samples-per-pixel. -/
inductive PixelSampler where
  | uniform (n : ℕ)
  | random (n : ℕ)
deriving DecidableEq

/-- The transcendental operations `CameraBuilder::build` needs (`tan`,
`to_radians`); they have no exact rational embedding and are kept
abstract. -/
structure TrigOps where
  tan : ℚ → ℚ
  to_radians : ℚ → ℚ

structure CameraBuilder where
  image_spec : Option ImageSpec := none
  pixel_sampler : Option PixelSampler := none
  max_ray_depth : Option ℕ := none
  field_of_view : Option ℚ := none
  lookfrom : Option Vec3 := none
  lookat : Option Vec3 := none
  up_vector : Option Vec3 := none
  defocus_angle : Option ℚ := none
  focus_distance : Option ℚ := none

structure Camera where
  aspect_ratio : ℚ
  image_width : ℕ
  pixel_sampler : PixelSampler
  depth : ℕ
  field_of_view : ℚ
  lookfrom : Vec3
  lookat : Vec3
  up_vector : Vec3
  defocus_angle : ℚ
  focus_distance : ℚ
  image_height : ℕ
  center : Vec3
  pixel00_loc : Vec3
  pixel_delta_u : Vec3
  pixel_delta_v : Vec3
  u : Vec3
  v : Vec3
  w : Vec3
  defocus_disk_u : Vec3
  defocus_disk_v : Vec3

/-- `CameraBuilder::build`.  Rust `panic!`/`expect` failures are modeled as
`Except.error` with the panic message; the sampler resolution happens before
any `Camera` field is computed, exactly as in the source.  The `fract() != 0`
integrality test of `(n as f64).sqrt()` is modeled exactly (for `n < 2^52`
the `f64` computation agrees): `n` passes iff it is a perfect square. -/
def CameraBuilder.build (trig : TrigOps) (b : CameraBuilder) :
    Except String Camera :=
  match b.image_spec with
  | none => .error "The image specifications must be set"
  | some image_spec =>
    match b.pixel_sampler with
    | none => .error "The samples per pixel must be set"
    | some ps =>
      match (match ps with
        | .uniform samples_per_pixel =>
          let samples_sqrt := Nat.sqrt samples_per_pixel
          if samples_sqrt * samples_sqrt ≠ samples_per_pixel then
            Except.error
              "samples_per_pixel in the grid sampler must be a square number"
          else Except.ok (PixelSampler.uniform samples_sqrt)
        | .random samples_per_pixel =>
          Except.ok (PixelSampler.random samples_per_pixel)) with
      | .error e => .error e
      | .ok pixel_sampler =>
        match b.max_ray_depth with
        | none => .error "The depth must be set"
        | some depth =>
          let field_of_view := b.field_of_view.getD 90
          let lookfrom := b.lookfrom.getD (Vec3.new 0 0 0)
          let lookat := b.lookat.getD (Vec3.new 0 0 (-1))
          let up_vector := b.up_vector.getD (Vec3.new 0 1 0)
          let defocus_angle := b.defocus_angle.getD 0
          let focus_distance :=
            b.focus_distance.getD (lookfrom.distance lookat)
          let center := lookfrom
          let theta := trig.to_radians field_of_view
          let h := trig.tan (theta / 2)
          let viewport_height := 2 * h * focus_distance
          let viewport_width := viewport_height * (image_spec.width : ℚ)
            / (image_spec.height : ℚ)
          let w := (lookfrom - lookat).unit_vector
          let u := (up_vector.cross w).unit_vector
          let v := w.cross u
          let viewport_u := viewport_width • u
          let viewport_v := viewport_height • (-v)
          let pixel_delta_u := viewport_u / (image_spec.width : ℚ)
          let pixel_delta_v := viewport_v / (image_spec.height : ℚ)
          let viewport_upper_left := center - (focus_distance • w)
            - viewport_u / (2 : ℚ) - viewport_v / (2 : ℚ)
          let pixel00_loc := viewport_upper_left
            + ((1 : ℚ) / 2) • (pixel_delta_u + pixel_delta_v)
          let defocus_radius := focus_distance
            * trig.tan (trig.to_radians (defocus_angle / 2))
          let defocus_disk_u := defocus_radius • u
          let defocus_disk_v := defocus_radius • v
          .ok
            { aspect_ratio := image_spec.aspect_ratio
              image_width := image_spec.width
              pixel_sampler := pixel_sampler
              depth := depth
              field_of_view := field_of_view
              lookfrom := lookfrom
              lookat := lookat
              up_vector := up_vector
              defocus_angle := defocus_angle
              focus_distance := focus_distance
              image_height := image_spec.height
              center := center
              pixel00_loc := pixel00_loc
              pixel_delta_u := pixel_delta_u
              pixel_delta_v := pixel_delta_v
              u := u
              v := v
              w := w
              defocus_disk_u := defocus_disk_u
              defocus_disk_v := defocus_disk_v }

/-! ## Path integrator (`Camera::ray_color` / `ray_color_inner`,
`src/camera/mod.rs` lines 191–214, identical in `src/camera.rs` 410–433)

The scene is an arbitrary `dyn Hittable` and the material an arbitrary
`dyn Material`, so both are abstract parameters here: `world_hit` is the
scene's `hit`, and `scatter m` is the scatter function of the material with
arena index `m` (threading the `&mut Rng` state explicitly). -/

/-- The sky-gradient expression at the tail of `ray_color_inner` (also
`Ray::color`). -/
def skyGradient (ray : Ray) : Color :=
  let unit_direction := ray.direction.unit_vector
  let a := (1 : ℚ) / 2 * (unit_direction.y + 1)
  (1 - a) • Color.new 1 1 1 + a • Color.new (1 / 2) (7 / 10) 1

/-- `ray_color_inner`.  Note the control flow: when the scene hits but
`scatter` returns `None`, the two `if let`s simply fall through to the
trailing sky-gradient expression. -/
def Camera.ray_color_inner
    (world_hit : Ray → FRange → Option HitRecord)
    (scatter : ℕ → Rng → Ray → HitRecord → Option (Color × Ray) × Rng)
    (rng : Rng) (depth limit : ℕ) (ray : Ray) : Color × Rng :=
  if limit ≤ depth then (Color.black, rng)
  else
    match world_hit ray ⟨F.fin (1 / 1000000), F.pinf⟩ with
    | some hit_record =>
      match scatter hit_record.material rng ray hit_record with
      | (some (attenuation, scattered), rng1) =>
        let res := Camera.ray_color_inner world_hit scatter rng1
          (depth + 1) limit scattered
        (attenuation * res.1, res.2)
      | (none, rng1) => (skyGradient ray, rng1)
    | none => (skyGradient ray, rng)
termination_by limit - depth
decreasing_by omega

/-- `Camera::ray_color`: the integrator entry point, depth 0. -/
def Camera.ray_color
    (world_hit : Ray → FRange → Option HitRecord)
    (scatter : ℕ → Rng → Ray → HitRecord → Option (Color × Ray) × Rng)
    (rng : Rng) (limit : ℕ) (ray : Ray) : Color × Rng :=
  Camera.ray_color_inner world_hit scatter rng 0 limit ray

/-! ## Concrete instances used by witnesses and counterexamples -/

/-- A trivial interpretation of the (abstract) texture-coordinate map. -/
def uvZero : Vec3 → ℚ × ℚ := fun _ => (0, 0)

/-- A trivial interpretation of the abstract trigonometric operations. -/
def trigZero : TrigOps := ⟨fun _ => 0, fun _ => 0⟩

/-- A ray pointing straight up (unit direction, so the sky gradient is
exactly computable). -/
def ray010 : Ray := Ray.new (Vec3.new 0 0 0) (Vec3.new 0 1 0) 0

/-- A hit record handed out by the always-hitting scene below. -/
def absorbRecord : HitRecord :=
  { point := Vec3.new 0 0 0
    normal := Vec3.new 0 0 1
    material := 0
    t := F.fin 1
    u := 0
    v := 0
    front_face := true }

/-- A scene whose `hit` always reports `absorbRecord`. -/
def absorbWorldHit : Ray → FRange → Option HitRecord := fun _ _ => some absorbRecord

/-- A material whose `scatter` always reports absorption (`None`).  The
`Material` trait is open (implementable by downstream code); none of the
three in-repo materials ever return `None`. -/
def absorbScatter : ℕ → Rng → Ray → HitRecord → Option (Color × Ray) × Rng :=
  fun _ rng _ _ => (none, rng)

/-- Two geometrically identical spheres with different materials (exact
`t` tie between distinct objects). -/
def tieSphere0 : Obj := Obj.sphere (Vec3.new 0 0 0) 1 0

def tieSphere1 : Obj := Obj.sphere (Vec3.new 0 0 0) 1 1

/-- A ray that hits both tie spheres at `t = 4`. -/
def tieRay : Ray := Ray.new (Vec3.new 0 0 5) (Vec3.new 0 0 (-1)) 0

/-- The hit range used by the integrator: `0.000001..INFINITY`. -/
def epsRange : FRange := ⟨F.fin (1 / 1000000), F.pinf⟩

/-! ## Structural predicates used by the correctness theorems -/

/-- The box of a `HittableList` contains the origin, axis-wise. -/
def containsOrigin (bb : AABB) : Prop :=
  bb.x.start ≤ 0 ∧ 0 ≤ bb.x.stop ∧ bb.y.start ≤ 0 ∧ 0 ≤ bb.y.stop
    ∧ bb.z.start ≤ 0 ∧ 0 ≤ bb.z.stop

/-- Closed axis-wise membership of a point in a box. -/
def inBox (bb : AABB) (p : Vec3) : Prop :=
  bb.x.start ≤ p.x ∧ p.x ≤ bb.x.stop ∧
  bb.y.start ≤ p.y ∧ p.y ≤ bb.y.stop ∧
  bb.z.start ≤ p.z ∧ p.z ≤ bb.z.stop

/-- The box invariant from the data model: `start ≤ end` per axis. -/
def wfBox (bb : AABB) : Prop :=
  bb.x.start ≤ bb.x.stop ∧ bb.y.start ≤ bb.y.stop ∧ bb.z.start ≤ bb.z.stop

/-- The axis-aligned box of the closed ball of radius `ρ` around `c`. -/
def ballBox (c : Vec3) (ρ : ℚ) : AABB :=
  ⟨⟨c.x - ρ, c.x + ρ⟩, ⟨c.y - ρ, c.y + ρ⟩, ⟨c.z - ρ, c.z + ρ⟩⟩

/-- Squared distance between two points. -/
def distSq (p q : Vec3) : ℚ := (p - q).length_squared

/-- Strict exclusive membership of `v` in the open interval `(s, e)`, as a
proposition (`FRange.exclusive` as the code computes it). -/
def exIn (s e v : F) : Prop := F.blt s v = true ∧ F.blt v e = true

/-! # Theorems -/

/-! ## Vector helper lemmas -/

theorem Vec3.eq_iff {a b : Vec3} :
    a = b ↔ a.x = b.x ∧ a.y = b.y ∧ a.z = b.z := by
  cases a; cases b; simp [Vec3.mk.injEq]

theorem Vec3.dot_smul_right (a : Vec3) (q : ℚ) (b : Vec3) :
    a.dot (q • b) = q * a.dot b := by
  simp [Vec3.dot, Vec3.smul_def]; ring

theorem Vec3.one_smul_eq (b : Vec3) : (1 : ℚ) • b = b := by
  cases b; simp [Vec3.smul_def]

theorem Vec3.neg_def (a : Vec3) : -a = ⟨-a.x, -a.y, -a.z⟩ := rfl

theorem Vec3.neg_one_smul_eq (b : Vec3) : (-1 : ℚ) • b = -b := by
  cases b with
  | mk x y z =>
    rw [Vec3.neg_def, Vec3.smul_def]
    simp only [Vec3.mk.injEq]
    exact ⟨by ring, by ring, by ring⟩

theorem Vec3.length_squared_eq_zero_iff {v : Vec3} :
    v.length_squared = 0 ↔ v = Vec3.zero := by
  cases v with
  | mk x y z =>
    unfold Vec3.length_squared Vec3.zero
    constructor
    · intro h
      have hx : x = 0 := by nlinarith [sq_nonneg x, sq_nonneg y, sq_nonneg z]
      have hy : y = 0 := by nlinarith [sq_nonneg x, sq_nonneg y, sq_nonneg z]
      have hz : z = 0 := by nlinarith [sq_nonneg x, sq_nonneg y, sq_nonneg z]
      simp [hx, hy, hz]
    · intro h
      simp at h
      simp [h.1, h.2.1, h.2.2]

/-! ## C4 — per-tile PRNG derivation -/

/-- C4 (counterexample): the claim asserts that two distinct tile indices
receive *distinct* PRNG states; in fact tiles 0 and 1 of a 96×96 render
receive exactly the same state. -/
theorem get_parameters_rng_equal_for_distinct_tiles :
    (Camera.get_parameters 96 96 0).1 = (Camera.get_parameters 96 96 1).1 :=
  rfl

/-- C4 (amended): every tile receives the *same* PRNG state: the
`get_parameters` closure clones the one loop-invariant generator — the seed
`[123, 128]` advanced by a single `short_jump` — regardless of the tile
index; the leap is not keyed by the index and the per-tile streams coincide
(they are not distinct, non-overlapping streams). -/
theorem get_parameters_rng_independent_of_index
    (image_width image_height i j : ℕ) :
    (Camera.get_parameters image_width image_height i).1
        = (Camera.get_parameters image_width image_height j).1
      ∧ (Camera.get_parameters image_width image_height i).1
        = Camera.render_base_rng
      ∧ Camera.render_base_rng = (Rng.from_seed 123 128).short_jump :=
  ⟨rfl, rfl, rfl⟩

/-! ## C5 — ordering of the two children of a 2-leaf node -/

/-- C5 (counterexample): for the input `[sphere at x=0, sphere at x=5]` the
builder (`BVHNode::from_vec` in `src/hittable/containers.rs`, whose
length-2 branch pops without comparing) produces `left` = the sphere at
`x = 5` and `right` = the sphere at `x = 0`, so the left child's
bounding-box center along the chosen axis (`depth % 3 = 0`) is *not* `≤`
the right child's. -/
theorem from_vec_two_not_comparator_ordered :
    BVHNode.from_vec
        [Obj.sphere (Vec3.new 0 0 0) 1 0, Obj.sphere (Vec3.new 5 0 0) 1 1]
      = Obj.node (Obj.sphere (Vec3.new 5 0 0) 1 1)
          (Obj.sphere (Vec3.new 0 0 0) 1 0)
          (AABB.from_boxes (Obj.sphere (Vec3.new 5 0 0) 1 1).bounding_box
            (Obj.sphere (Vec3.new 0 0 0) 1 0).bounding_box)
    ∧ ¬ (((Obj.sphere (Vec3.new 5 0 0) 1 1).bounding_box.axis (0 % 3)).middle
        ≤ ((Obj.sphere (Vec3.new 0 0 0) 1 0).bounding_box.axis (0 % 3)).middle) :=
  ⟨rfl, by
    norm_num [Obj.bounding_box, AABB.from_vecs, AABB.axis, QRange.middle,
      qmin, qmax, Vec3.new, Vec3.add_def, Vec3.sub_def]⟩

/-- C5 (amended): for a 2-element collection the `containers.rs` builder
applies *no* comparator: it pops `left` = the last element and `right` = the
first, with the node box the union of their boxes.  Only the older builder in
`src/hittable/mod.rs` orders its length-2 node by the box-center comparator,
so that the left child's center along the chosen axis is `≤` the right's. -/
theorem from_vec_two_children (a b : Obj) (axis : ℕ) :
    BVHNode.from_vec [a, b]
      = Obj.node b a (AABB.from_boxes b.bounding_box a.bounding_box)
    ∧ ∃ l r, BVHNode.from_vec_two_mod axis [a, b]
        = some (Obj.node l r (AABB.from_boxes b.bounding_box a.bounding_box))
      ∧ (l.bounding_box.axis axis).middle ≤ (r.bounding_box.axis axis).middle := by
  constructor
  · rfl
  · by_cases hlt : (b.bounding_box.axis axis).middle
        < (a.bounding_box.axis axis).middle
    · refine ⟨b, a, ?_, le_of_lt hlt⟩
      simp [BVHNode.from_vec_two_mod, hlt]
    · refine ⟨a, b, ?_, not_lt.mp hlt⟩
      simp [BVHNode.from_vec_two_mod, hlt]

/-! ## Component-definition helper lemmas -/

theorem Vec3.div_def (a : Vec3) (q : ℚ) :
    a / q = ⟨a.x / q, a.y / q, a.z / q⟩ := rfl

theorem Color.add_comps (a b : Color) :
    a + b = ⟨a.r + b.r, a.g + b.g, a.b + b.b⟩ := rfl

theorem Color.mul_def (a b : Color) :
    a * b = ⟨a.r * b.r, a.g * b.g, a.b * b.b⟩ := rfl

theorem Color.smul_comps (q : ℚ) (a : Color) :
    q • a = ⟨q * a.r, q * a.g, q * a.b⟩ := rfl

/-! ## C10 — the `HittableList` box is anchored at the origin -/

theorem foldl_add_containsOrigin :
    ∀ (objects : List Obj) (acc : List Obj × AABB), containsOrigin acc.2 →
      containsOrigin (objects.foldl HittableList.add acc).2 := by
  intro objects
  induction objects with
  | nil => intro acc h; exact h
  | cons o rest ih =>
    intro acc h
    refine ih _ ?_
    obtain ⟨h1, h2, h3, h4, h5, h6⟩ := h
    refine ⟨?_, ?_, ?_, ?_, ?_, ?_⟩ <;>
      simp only [HittableList.add, AABB.from_boxes, QRange.union,
        qmin_eq_min, qmax_eq_max]
    · exact le_trans (min_le_left _ _) h1
    · exact le_trans h2 (le_max_left _ _)
    · exact le_trans (min_le_left _ _) h3
    · exact le_trans h4 (le_max_left _ _)
    · exact le_trans (min_le_left _ _) h5
    · exact le_trans h6 (le_max_left _ _)

theorem foldl_add_start_eq_zero :
    ∀ (objects : List Obj) (acc : List Obj × AABB),
      (∀ o ∈ objects, 0 < o.bounding_box.x.start
        ∧ 0 < o.bounding_box.y.start ∧ 0 < o.bounding_box.z.start) →
      acc.2.x.start = 0 → acc.2.y.start = 0 → acc.2.z.start = 0 →
      (objects.foldl HittableList.add acc).2.x.start = 0
        ∧ (objects.foldl HittableList.add acc).2.y.start = 0
        ∧ (objects.foldl HittableList.add acc).2.z.start = 0 := by
  intro objects
  induction objects with
  | nil => intro acc _ h1 h2 h3; exact ⟨h1, h2, h3⟩
  | cons o rest ih =>
    intro acc hpos h1 h2 h3
    have ho := hpos o (by simp)
    refine ih _ (fun o ho => hpos o (by simp [ho])) ?_ ?_ ?_ <;>
      simp only [HittableList.add, AABB.from_boxes, QRange.union, qmin_eq_min]
    · rw [h1]; exact min_eq_left (le_of_lt ho.1)
    · rw [h2]; exact min_eq_left (le_of_lt ho.2.1)
    · rw [h3]; exact min_eq_left (le_of_lt ho.2.2)

/-- C10: a `HittableList` built by repeated `add` starts from the default
degenerate `0.0..0.0` box and only unions onto it, so its box always
contains the origin; when every added object's box lies strictly in positive
coordinates, the list's box still has `start = 0` on every axis (it is not
the tight union of the members' boxes). -/
theorem hittable_list_box_contains_origin (objects : List Obj) :
    containsOrigin (HittableList.build objects).2
    ∧ ((∀ o ∈ objects, 0 < o.bounding_box.x.start
          ∧ 0 < o.bounding_box.y.start ∧ 0 < o.bounding_box.z.start) →
        (HittableList.build objects).2.x.start = 0
          ∧ (HittableList.build objects).2.y.start = 0
          ∧ (HittableList.build objects).2.z.start = 0) := by
  constructor
  · exact foldl_add_containsOrigin objects ([], AABB.new)
      ⟨le_refl 0, le_refl 0, le_refl 0, le_refl 0, le_refl 0, le_refl 0⟩
  · intro hpos
    exact foldl_add_start_eq_zero objects ([], AABB.new) hpos rfl rfl rfl

/-- C10 (witness): a single sphere at `(5,5,5)` with radius 1 — its own box
starts at 4 on every axis, yet the list box starts at 0. -/
theorem hittable_list_box_contains_origin_witness :
    containsOrigin (HittableList.build [Obj.sphere (Vec3.new 5 5 5) 1 0]).2
    ∧ (HittableList.build [Obj.sphere (Vec3.new 5 5 5) 1 0]).2.x.start = 0
    ∧ (HittableList.build [Obj.sphere (Vec3.new 5 5 5) 1 0]).2.y.start = 0
    ∧ (HittableList.build [Obj.sphere (Vec3.new 5 5 5) 1 0]).2.z.start = 0 :=
  ⟨(hittable_list_box_contains_origin [Obj.sphere (Vec3.new 5 5 5) 1 0]).1,
   (hittable_list_box_contains_origin [Obj.sphere (Vec3.new 5 5 5) 1 0]).2
    (by
      intro o ho
      simp only [List.mem_singleton] at ho
      subst ho
      refine ⟨?_, ?_, ?_⟩ <;>
        norm_num [Obj.bounding_box, AABB.from_vecs, qmin, Vec3.new,
          Vec3.add_def, Vec3.sub_def])⟩

/-! ## C1 — what the integrator returns on absorption -/

/-- C1 (amended): when the scene reports a hit and the material's `scatter`
reports absorption (`None`), `ray_color_inner` does *not* return black: the
two `if let`s fall through to the trailing sky-gradient expression, so it
returns the sky gradient for the incoming ray (black is returned only at the
depth cutoff). -/
theorem ray_color_inner_absorption_sky
    (world_hit : Ray → FRange → Option HitRecord)
    (scatter : ℕ → Rng → Ray → HitRecord → Option (Color × Ray) × Rng)
    (rng : Rng) (depth limit : ℕ) (ray : Ray) (hit_record : HitRecord)
    (rng1 : Rng)
    (hdepth : depth < limit)
    (hhit : world_hit ray ⟨F.fin (1 / 1000000), F.pinf⟩ = some hit_record)
    (hscat : scatter hit_record.material rng ray hit_record = (none, rng1)) :
    Camera.ray_color_inner world_hit scatter rng depth limit ray
      = (skyGradient ray, rng1) := by
  unfold Camera.ray_color_inner
  rw [if_neg (by omega)]
  simp only [hhit]
  simp only [hscat]

/-- C1 (witness): the amended theorem at a concrete absorbing scene. -/
theorem ray_color_inner_absorption_sky_witness :
    Camera.ray_color_inner absorbWorldHit absorbScatter (Rng.from_seed 1 2) 0
        10 ray010
      = (skyGradient ray010, Rng.from_seed 1 2) :=
  ray_color_inner_absorption_sky absorbWorldHit absorbScatter
    (Rng.from_seed 1 2) 0 10 ray010 absorbRecord (Rng.from_seed 1 2)
    (by omega) rfl rfl

/-- C1 (counterexample): a scene that hits with an absorbing material, a
depth below the limit — `ray_color_inner` returns the sky color
`(1/2, 7/10, 1)`, not black. -/
theorem ray_color_inner_absorption_not_black :
    absorbWorldHit ray010 ⟨F.fin (1 / 1000000), F.pinf⟩ = some absorbRecord
    ∧ absorbScatter absorbRecord.material (Rng.from_seed 1 2) ray010
        absorbRecord = (none, Rng.from_seed 1 2)
    ∧ Camera.ray_color_inner absorbWorldHit absorbScatter (Rng.from_seed 1 2)
        0 10 ray010 = (Color.new (1 / 2) (7 / 10) 1, Rng.from_seed 1 2)
    ∧ Color.new (1 / 2) (7 / 10) 1 ≠ Color.black := by
  refine ⟨rfl, rfl, ?_, ?_⟩
  · unfold Camera.ray_color_inner
    rw [if_neg (by omega)]
    have h1 : absorbWorldHit ray010 ⟨F.fin (1 / 1000000), F.pinf⟩
      = some absorbRecord := rfl
    have h2 : absorbScatter absorbRecord.material (Rng.from_seed 1 2) ray010
      absorbRecord = (none, Rng.from_seed 1 2) := rfl
    simp only [h1]
    simp only [h2]
    rw [Prod.mk.injEq]
    refine ⟨?_, rfl⟩
    norm_num [skyGradient, ray010, Ray.new, Vec3.new, Vec3.unit_vector,
      Vec3.length, Vec3.length_squared, ratSqrt, isqrt, isqrtGo,
      Vec3.div_def, Color.new, Color.add_comps, Color.smul_comps]
  · intro h
    rw [Color.mk.injEq] at h
    norm_num [Color.new, Color.black] at h

/-! ## C9 — the stratified sampler requires a perfect-square sample count -/

/-- C9: with the `Uniform` (stratified-grid) sampler configured with `n`
samples per pixel (and the other required options present),
`CameraBuilder::build` panics during configuration resolution — before any
`Camera` is constructed — iff `n` is not a perfect square; for perfect
squares it succeeds and the built camera stores the integer square root. -/
theorem build_uniform_requires_square (trig : TrigOps) (b : CameraBuilder)
    (n : ℕ)
    (hps : b.pixel_sampler = some (PixelSampler.uniform n))
    (hspec : b.image_spec.isSome = true)
    (hdepth : b.max_ray_depth.isSome = true) :
    (¬ (∃ k, k * k = n) → CameraBuilder.build trig b
      = Except.error
          "samples_per_pixel in the grid sampler must be a square number")
    ∧ ((∃ k, k * k = n) → ∃ cam, CameraBuilder.build trig b = Except.ok cam
        ∧ cam.pixel_sampler = PixelSampler.uniform (Nat.sqrt n)) := by
  obtain ⟨spec, hspec⟩ := Option.isSome_iff_exists.mp hspec
  obtain ⟨depth, hdepth⟩ := Option.isSome_iff_exists.mp hdepth
  constructor
  · intro hn
    have hne : Nat.sqrt n * Nat.sqrt n ≠ n := by
      intro h
      exact hn ((Nat.exists_mul_self n).mpr h)
    unfold CameraBuilder.build
    rw [hspec, hps, hdepth]
    simp [hne]
  · intro hn
    have heq : Nat.sqrt n * Nat.sqrt n = n := (Nat.exists_mul_self n).mp hn
    unfold CameraBuilder.build
    rw [hspec, hps, hdepth]
    simp only [ne_eq, heq, not_true_eq_false, if_false, Bool.false_eq_true]
    exact ⟨_, rfl, rfl⟩

/-- C9 (witness): the theorem at `n = 2` (not a square: the build fails) and
at `n = 9` (a square: the build succeeds and stores `sqrt 9`). -/
theorem build_uniform_requires_square_witness :
    (CameraBuilder.build trigZero
        { image_spec := some ⟨400, 225, 16 / 9⟩
          pixel_sampler := some (PixelSampler.uniform 2)
          max_ray_depth := some 10 }
      = Except.error
          "samples_per_pixel in the grid sampler must be a square number")
    ∧ (∃ cam, CameraBuilder.build trigZero
          { image_spec := some ⟨400, 225, 16 / 9⟩
            pixel_sampler := some (PixelSampler.uniform 9)
            max_ray_depth := some 10 }
        = Except.ok cam
        ∧ cam.pixel_sampler = PixelSampler.uniform (Nat.sqrt 9)) :=
  ⟨(build_uniform_requires_square trigZero
      { image_spec := some ⟨400, 225, 16 / 9⟩
        pixel_sampler := some (PixelSampler.uniform 2)
        max_ray_depth := some 10 } 2 rfl rfl rfl).1
    (by
      rintro ⟨k, hk⟩
      have hk2 : k ≤ 1 := by nlinarith
      interval_cases k <;> omega),
   (build_uniform_requires_square trigZero
      { image_spec := some ⟨400, 225, 16 / 9⟩
        pixel_sampler := some (PixelSampler.uniform 9)
        max_ray_depth := some 10 } 9 rfl rfl rfl).2 ⟨3, rfl⟩⟩

/-! ## C7 — hit-record normals oppose the incoming ray -/

theorem Vec3.dot_neg_right (a b : Vec3) : a.dot (-b) = -(a.dot b) := by
  cases a; cases b; simp [Vec3.dot, Vec3.neg_def]; ring

/-- C7: every record produced by `Sphere::calculate_hit` (used by both
`Sphere::hit` and `MovingSphere::hit`) has a normal opposing the incoming
ray — `dot(ray.direction, normal) ≤ 0` — with `front_face` set exactly when
`dot(ray.direction, outward_normal) < 0` and the stored normal equal to the
negated outward normal in the non-front-face case. -/
theorem calculate_hit_normal_opposes (uv : Vec3 → ℚ × ℚ) (radius : ℚ)
    (material : ℕ) (ray : Ray) (trange : FRange) (center : Vec3)
    (rec : HitRecord)
    (h : Sphere.calculate_hit uv radius material ray trange center
      = some rec) :
    ray.direction.dot rec.normal ≤ 0
    ∧ (rec.front_face = true
        ↔ ray.direction.dot ((rec.point - center) / radius) < 0)
    ∧ (rec.front_face = false
        → rec.normal = -((rec.point - center) / radius)) := by
  simp only [Sphere.calculate_hit] at h
  split at h
  · exact absurd h (by simp)
  · split at h
    · exact absurd h (by simp)
    · rename_i root heq
      rw [Option.some.injEq] at h
      subst h
      cases hB : decide
          (ray.direction.dot ((ray.atP root.toRat - center) / radius) < 0) with
      | true =>
        have hd := of_decide_eq_true hB
        refine ⟨?_, ?_, ?_⟩
        · simpa [hB, Vec3.one_smul_eq] using le_of_lt hd
        · simp [hB, hd]
        · simp [hB]
      | false =>
        have hd := of_decide_eq_false hB
        refine ⟨?_, ?_, ?_⟩
        · simp only [hB, Bool.false_eq_true, if_false,
            Vec3.neg_one_smul_eq, Vec3.dot_neg_right]
          linarith [not_lt.mp hd]
        · simp [hB, hd]
        · simp [hB, Vec3.neg_one_smul_eq]

/-- C7 (witness): a concrete front-face hit — ray from `(0,0,5)` straight
down the z-axis onto the unit sphere at the origin. -/
theorem calculate_hit_normal_opposes_witness :
    (Ray.new (Vec3.new 0 0 5) (Vec3.new 0 0 (-1)) 0).direction.dot
        ((HitRecord.mk (Vec3.new 0 0 1) (Vec3.new 0 0 1) 0 (F.fin 4) 0 0
          true).normal) ≤ 0 := by
  have h : Sphere.calculate_hit uvZero 1 0
      (Ray.new (Vec3.new 0 0 5) (Vec3.new 0 0 (-1)) 0)
      ⟨F.fin 0, F.fin 100⟩ (Vec3.new 0 0 0)
      = some (HitRecord.mk (Vec3.new 0 0 1) (Vec3.new 0 0 1) 0 (F.fin 4)
          0 0 true) := by
    norm_num [Sphere.calculate_hit, Ray.new, Vec3.new, Ray.atP, Vec3.sub_def,
      Vec3.add_def, Vec3.smul_def, Vec3.dot, Vec3.length_squared, ratSqrt,
      isqrt, isqrtGo, fdivQ, FRange.exclusive, F.blt, F.toRat, Vec3.div_def,
      Vec3.one_smul_eq, uvZero, HitRecord.mk.injEq]
  exact (calculate_hit_normal_opposes uvZero 1 0
    (Ray.new (Vec3.new 0 0 5) (Vec3.new 0 0 (-1)) 0)
    ⟨F.fin 0, F.fin 100⟩ (Vec3.new 0 0 0) _ h).1

/-! ## C8 — ray from the sphere center -/

theorem Vec3.sub_self (c : Vec3) : c - c = Vec3.new 0 0 0 := by
  cases c; simp [Vec3.sub_def, Vec3.new]

theorem Vec3.dot_zero_left (d : Vec3) : (Vec3.new 0 0 0).dot d = 0 := by
  simp [Vec3.dot, Vec3.new]

theorem Vec3.length_squared_zero : (Vec3.new 0 0 0).length_squared = 0 := by
  simp [Vec3.length_squared, Vec3.new]

/-- C8: for a sphere of radius `r > 0` and a ray cast from its center with
nonzero direction, `calculate_hit` over `(t_min, t_max)` with
`0 ≤ t_min < t < t_max` (where `t` is the accepted root) returns a hit at
exactly `t = radius / |direction|` — i.e. `t² · |direction|² = r²` with
`t > 0` — and the smaller root `-t` is rejected by the open-interval
membership test.  (The hypothesis on `ratSqrt` states that the discriminant
is an exact rational square, which is the exact-arithmetic reading of the
claim.) -/
theorem sphere_center_ray_hit (uv : Vec3 → ℚ × ℚ) (c : Vec3) (r : ℚ)
    (material : ℕ) (dir : Vec3) (time tmin tmax : ℚ)
    (hdir : dir ≠ Vec3.zero) (hr : 0 < r)
    (hsq : ratSqrt (dir.length_squared * r ^ 2) ^ 2
      = dir.length_squared * r ^ 2)
    (htmin : 0 ≤ tmin)
    (hlt : tmin < ratSqrt (dir.length_squared * r ^ 2) / dir.length_squared)
    (hgt : ratSqrt (dir.length_squared * r ^ 2) / dir.length_squared < tmax) :
    ∃ rec, Sphere.calculate_hit uv r material (Ray.new c dir time)
        ⟨F.fin tmin, F.fin tmax⟩ c = some rec
      ∧ rec.t = F.fin
          (ratSqrt (dir.length_squared * r ^ 2) / dir.length_squared)
      ∧ (ratSqrt (dir.length_squared * r ^ 2) / dir.length_squared) ^ 2
          * dir.length_squared = r ^ 2
      ∧ 0 < ratSqrt (dir.length_squared * r ^ 2) / dir.length_squared
      ∧ FRange.exclusive ⟨F.fin tmin, F.fin tmax⟩
          (F.fin (-(ratSqrt (dir.length_squared * r ^ 2)
            / dir.length_squared))) = false := by
  have hm : 0 < dir.length_squared := by
    rcases lt_or_eq_of_le (Vec3.length_squared_nonneg dir) with h | h
    · exact h
    · exact absurd (Vec3.length_squared_eq_zero_iff.mp h.symm) hdir
  have hs0 : 0 < ratSqrt (dir.length_squared * r ^ 2) := by
    rcases lt_or_eq_of_le (ratSqrt_nonneg (dir.length_squared * r ^ 2))
      with h | h
    · exact h
    · exfalso
      have h2 : dir.length_squared * r ^ 2 = 0 := by rw [← hsq, ← h]; norm_num
      exact absurd h2 (by positivity)
  set s := ratSqrt (dir.length_squared * r ^ 2) with hsdef
  set m := dir.length_squared with hmdef
  have ht0 : 0 < s / m := div_pos hs0 hm
  have key : Sphere.calculate_hit uv r material (Ray.new c dir time)
      ⟨F.fin tmin, F.fin tmax⟩ c
      = some
        { point := (Ray.new c dir time).atP (F.fin (s / m)).toRat
          normal := (if decide ((Ray.new c dir time).direction.dot
              (((Ray.new c dir time).atP (F.fin (s / m)).toRat - c) / r) < 0)
            then (1 : ℚ) else -1)
            • (((Ray.new c dir time).atP (F.fin (s / m)).toRat - c) / r)
          material := material
          t := F.fin (s / m)
          u := (uv (((Ray.new c dir time).atP (F.fin (s / m)).toRat - c)
            / r)).1
          v := (uv (((Ray.new c dir time).atP (F.fin (s / m)).toRat - c)
            / r)).2
          front_face := decide ((Ray.new c dir time).direction.dot
            (((Ray.new c dir time).atP (F.fin (s / m)).toRat - c) / r)
              < 0) } := by
    have horig : (Ray.new c dir time).origin - c = Vec3.new 0 0 0 := by
      simp [Ray.new, Vec3.sub_self]
    simp only [Sphere.calculate_hit, horig, Vec3.sub_self,
      Vec3.dot_zero_left, Vec3.length_squared_zero, Ray.new]
    have hdisc : (0 : ℚ) ^ 2 - dir.length_squared * (0 - r ^ 2)
        = dir.length_squared * r ^ 2 := by ring
    rw [hdisc]
    rw [if_neg (by push_neg; positivity)]
    have hroot1 : fdivQ (-0 - s) m = F.fin (-(s / m)) := by
      rw [fdivQ, if_neg hm.ne']
      norm_num [neg_div]
    have hroot2 : fdivQ (-0 + s) m = F.fin (s / m) := by
      rw [fdivQ, if_neg hm.ne']
      norm_num
    rw [← hsdef, ← hmdef, hroot1, hroot2]
    have hex1 : FRange.exclusive ⟨F.fin tmin, F.fin tmax⟩ (F.fin (-(s / m)))
        = false := by
      have : ¬ (tmin < -(s / m)) := by
        push_neg
        linarith [ht0]
      simp [FRange.exclusive, F.blt, this]
    have hex2 : FRange.exclusive ⟨F.fin tmin, F.fin tmax⟩ (F.fin (s / m))
        = true := by
      simp [FRange.exclusive, F.blt, hlt, hgt]
    rw [hex1, hex2]
    simp
  refine ⟨_, key, rfl, ?_, ht0, ?_⟩
  · have h2 : (s / m) ^ 2 * m = s ^ 2 / m := by
      field_simp
      ring
    rw [h2, hsq, mul_comm, mul_div_assoc, div_self hm.ne', mul_one]
  · have : ¬ (tmin < -(s / m)) := by
      push_neg
      linarith [ht0]
    simp [FRange.exclusive, F.blt, this]

/-- C8 (witness): sphere of radius 3 at the origin, ray direction
`(0,0,2)` — the accepted root is `t = 3/2 = radius/|direction|`, the smaller
root `-3/2` is rejected. -/
theorem sphere_center_ray_hit_witness :
    ∃ rec, Sphere.calculate_hit uvZero 3 0
        (Ray.new (Vec3.new 0 0 0) (Vec3.new 0 0 2) 0)
        ⟨F.fin 0, F.fin 10⟩ (Vec3.new 0 0 0) = some rec
      ∧ rec.t = F.fin
          (ratSqrt ((Vec3.new 0 0 2).length_squared * 3 ^ 2)
            / (Vec3.new 0 0 2).length_squared)
      ∧ (ratSqrt ((Vec3.new 0 0 2).length_squared * 3 ^ 2)
            / (Vec3.new 0 0 2).length_squared) ^ 2
          * (Vec3.new 0 0 2).length_squared = 3 ^ 2
      ∧ 0 < ratSqrt ((Vec3.new 0 0 2).length_squared * 3 ^ 2)
          / (Vec3.new 0 0 2).length_squared
      ∧ FRange.exclusive ⟨F.fin 0, F.fin 10⟩
          (F.fin (-(ratSqrt ((Vec3.new 0 0 2).length_squared * 3 ^ 2)
            / (Vec3.new 0 0 2).length_squared))) = false := by
  have hls : (Vec3.new 0 0 2).length_squared = 4 := by
    norm_num [Vec3.length_squared, Vec3.new]
  have hrs : ratSqrt ((Vec3.new 0 0 2).length_squared * 3 ^ 2) = 6 := by
    rw [hls, show ((4 : ℚ) * 3 ^ 2) = 36 by norm_num, ratSqrt]
    norm_num [show Int.toNat 36 = 36 from rfl,
      show isqrt 36 = 6 from by decide]
  refine sphere_center_ray_hit uvZero (Vec3.new 0 0 0) 3 0 (Vec3.new 0 0 2)
    0 0 10 ?_ (by norm_num) ?_ (by norm_num) ?_ ?_
  · intro h
    rw [Vec3.new, Vec3.zero, Vec3.mk.injEq] at h
    norm_num at h
  · rw [hrs, hls]
    norm_num
  · rw [hrs, hls]
    norm_num
  · rw [hrs, hls]
    norm_num

/-! ## Builder structure lemmas (used by C6 and C2) -/

theorem splitIndex_pos (sl : List Obj) (ax : ℕ) (mean : ℚ) (len : ℕ) :
    1 ≤ splitIndex sl ax mean len :=
  Nat.le_max_right _ 1

theorem splitIndex_le (sl : List Obj) (ax : ℕ) (mean : ℚ) (len : ℕ)
    (hlen : 3 ≤ len) (hsl : sl.length = len) :
    splitIndex sl ax mean len ≤ len - 1 := by
  unfold splitIndex
  cases hfd : (sl.map (fun o => (o.bounding_box.axis ax).middle)).findIdx?
      (fun x => decide (x ≥ mean)) with
  | none =>
    simp only [Option.getD_none]
    refine Nat.max_le.mpr ⟨?_, ?_⟩ <;> omega
  | some i =>
    have hi := (List.findIdx?_eq_some_iff_findIdx_eq.mp hfd).1
    rw [List.length_map, hsl] at hi
    simp only [Option.getD_some]
    refine Nat.max_le.mpr ⟨?_, ?_⟩ <;> omega

theorem nodeBoxOkList_iff (l : List Obj) :
    Obj.nodeBoxOkList l ↔ ∀ o ∈ l, o.nodeBoxOk := by
  induction l with
  | nil => simp [Obj.nodeBoxOkList]
  | cons o rest ih => simp [Obj.nodeBoxOkList, ih]

theorem candsList_append (l₁ l₂ : List Obj) (ray : Ray) :
    Obj.candsList (l₁ ++ l₂) ray
      = Obj.candsList l₁ ray ++ Obj.candsList l₂ ray := by
  induction l₁ with
  | nil => simp [Obj.candsList]
  | cons o rest ih => simp [Obj.candsList, ih]

theorem candsList_perm {l₁ l₂ : List Obj} (h : l₁.Perm l₂) (ray : Ray) :
    (Obj.candsList l₁ ray).Perm (Obj.candsList l₂ ray) := by
  induction h with
  | nil => exact List.Perm.refl _
  | cons x _ ih =>
    simp only [Obj.candsList]
    exact List.Perm.append_left _ ih
  | swap x y l =>
    simp only [Obj.candsList]
    rw [show Obj.cands y ray ++ (Obj.cands x ray ++ Obj.candsList l ray)
        = (Obj.cands y ray ++ Obj.cands x ray) ++ Obj.candsList l ray from
      (List.append_assoc _ _ _).symm]
    rw [show Obj.cands x ray ++ (Obj.cands y ray ++ Obj.candsList l ray)
        = (Obj.cands x ray ++ Obj.cands y ray) ++ Obj.candsList l ray from
      (List.append_assoc _ _ _).symm]
    exact List.Perm.append_right _ List.perm_append_comm
  | trans _ _ ih₁ ih₂ => exact ih₁.trans ih₂

theorem subBox_from_boxes_left (a b : AABB) :
    AABB.subBox a (AABB.from_boxes a b) := by
  refine ⟨?_, ?_, ?_, ?_, ?_, ?_⟩ <;>
    simp only [AABB.from_boxes, QRange.union, qmin_eq_min, qmax_eq_max]
  · exact min_le_left _ _
  · exact le_max_left _ _
  · exact min_le_left _ _
  · exact le_max_left _ _
  · exact min_le_left _ _
  · exact le_max_left _ _

theorem subBox_from_boxes_right (a b : AABB) :
    AABB.subBox b (AABB.from_boxes a b) := by
  refine ⟨?_, ?_, ?_, ?_, ?_, ?_⟩ <;>
    simp only [AABB.from_boxes, QRange.union, qmin_eq_min, qmax_eq_max]
  · exact min_le_right _ _
  · exact le_max_right _ _
  · exact min_le_right _ _
  · exact le_max_right _ _
  · exact min_le_right _ _
  · exact le_max_right _ _

/-- Master specification of `inner_from_vec`: with sufficient fuel it
(1) pops exactly the elements at index `≥ start`, (2) builds nodes whose
boxes are exact unions (given the inputs satisfy that), (3) preserves
well-formedness, and (4) has as candidate roots exactly (a permutation of)
those of the consumed elements. -/
theorem inner_from_vec_spec :
    ∀ (fuel : ℕ) (objects : List Obj) (start depth : ℕ),
      1 ≤ objects.length - start → objects.length - start ≤ fuel →
      (BVHNode.inner_from_vec fuel objects start depth).2 = objects.take start
      ∧ ((∀ o ∈ objects.drop start, o.nodeBoxOk)
          → (BVHNode.inner_from_vec fuel objects start depth).1.nodeBoxOk)
      ∧ ((∀ o ∈ objects.drop start, o.wf)
          → Obj.wf (BVHNode.inner_from_vec fuel objects start depth).1)
      ∧ (∀ ray,
          ((BVHNode.inner_from_vec fuel objects start depth).1.cands ray).Perm
            (Obj.candsList (objects.drop start) ray)) := by
  intro fuel
  induction fuel with
  | zero => intro objects start depth h1 h2; omega
  | succ f ih =>
    intro objects start depth h1 h2
    by_cases hl1 : objects.length - start = 1
    · -- a single element: pop it
      rcases List.eq_nil_or_concat objects with rfl | ⟨L, b, rfl⟩
      · simp at h1
      rw [List.concat_eq_append] at *
      have hstart : start = L.length := by
        rw [List.length_append, List.length_cons, List.length_nil] at hl1
        omega
      subst hstart
      have heq : BVHNode.inner_from_vec (f + 1) (L ++ [b]) L.length depth
          = (b, L) := by
        simp only [BVHNode.inner_from_vec, hl1, if_pos, List.getLast?_concat,
          List.dropLast_concat]
      rw [heq, List.take_left, List.drop_left]
      refine ⟨rfl, ?_, ?_, ?_⟩
      · intro h; exact h b (by simp)
      · intro h; exact h b (by simp)
      · intro ray
        simp [Obj.candsList]
    · by_cases hl2 : objects.length - start = 2
      · -- two elements: pop both, no comparator
        rcases List.eq_nil_or_concat objects with rfl | ⟨L₁, b, rfl⟩
        · simp at h1
        rw [List.concat_eq_append] at *
        rcases List.eq_nil_or_concat L₁ with rfl | ⟨L, a, rfl⟩
        · simp at hl2; omega
        rw [List.concat_eq_append] at *
        have hstart : start = L.length := by
          simp only [List.length_append, List.length_cons, List.length_nil]
            at hl2
          omega
        subst hstart
        have hmatch1 : ((L ++ [a]) ++ [b]).getLast? = some b :=
          List.getLast?_concat _
        have hmatch2 : ((L ++ [a]) ++ [b]).dropLast.getLast? = some a := by
          rw [List.dropLast_concat]
          exact List.getLast?_concat _
        have heq : BVHNode.inner_from_vec (f + 1) ((L ++ [a]) ++ [b])
            L.length depth
            = (Obj.node b a
                (AABB.from_boxes b.bounding_box a.bounding_box), L) := by
          simp only [BVHNode.inner_from_vec, hl1, hl2, if_neg, if_pos,
            hmatch1, hmatch2, List.dropLast_concat]
          simp
        have happ : (L ++ [a]) ++ [b] = L ++ [a, b] := by simp
        rw [heq, happ, List.take_left' (by simp), List.drop_left' (by simp)]
        refine ⟨rfl, ?_, ?_, ?_⟩
        · intro h
          exact ⟨rfl, h b (by simp), h a (by simp)⟩
        · intro h
          exact ⟨h b (by simp), h a (by simp),
            subBox_from_boxes_left _ _, subBox_from_boxes_right _ _⟩
        · intro ray
          simp only [Obj.cands, Obj.candsList, List.append_nil]
          exact List.perm_append_comm
      · -- three or more: sort, split, recurse
        have hge3 : 3 ≤ objects.length - start := by omega
        have hstartle : start ≤ objects.length := by omega
        simp only [BVHNode.inner_from_vec, hl1, hl2, if_neg]
        set axis := chooseAxis (objects.drop start) with haxis
        set mean := middlesMean (objects.drop start) axis with hmean
        set sorted := objects.take start
          ++ (objects.drop start).mergeSort (boxLe axis) with hsorted
        set split := splitIndex (sorted.drop start) axis mean
          (objects.length - start) with hsplitdef
        have hsortlen : sorted.length = objects.length := by
          rw [hsorted]
          simp only [List.length_append, List.length_take,
            List.length_mergeSort, List.length_drop]
          omega
        have htakelen : (objects.take start).length = start := by
          simp [hstartle]
        have hdropsorted : sorted.drop start
            = (objects.drop start).mergeSort (boxLe axis) := by
          rw [hsorted]
          exact List.drop_left' htakelen
        have hslicelen : (sorted.drop start).length
            = objects.length - start := by
          rw [hdropsorted, List.length_mergeSort, List.length_drop]
        have hsplit1 : 1 ≤ split := splitIndex_pos _ _ _ _
        have hsplit2 : split ≤ (objects.length - start) - 1 :=
          splitIndex_le _ _ _ _ hge3 hslicelen
        have hr := ih sorted (start + split) (depth + 1)
          (by omega) (by omega)
        obtain ⟨hr2, hrbox, hrwf, hrcands⟩ := hr
        rw [hr2]
        have hl := ih (sorted.take (start + split)) start (depth + 1)
          (by rw [List.length_take]; omega) (by rw [List.length_take]; omega)
        obtain ⟨hll2, hlbox, hlwf, hlcands⟩ := hl
        rw [hll2]
        have htake2 : (sorted.take (start + split)).take start
            = objects.take start := by
          rw [List.take_take, min_eq_left (by omega), hsorted,
            List.take_left' htakelen]
        have hdropl : (sorted.take (start + split)).drop start
            = ((objects.drop start).mergeSort (boxLe axis)).take split := by
          rw [List.drop_take, ← hdropsorted]
          congr 1
          omega
        have hdropr : sorted.drop (start + split)
            = ((objects.drop start).mergeSort (boxLe axis)).drop split := by
          rw [← List.drop_drop, hdropsorted]
        refine ⟨htake2, ?_, ?_, ?_⟩
        · intro h
          have hmem : ∀ o ∈ (objects.drop start).mergeSort (boxLe axis),
              o.nodeBoxOk := fun o ho => h o (List.mem_mergeSort.mp ho)
          refine ⟨rfl, ?_, ?_⟩
          · exact hlbox (fun o ho => hmem o
              (List.mem_of_mem_take (hdropl ▸ ho)))
          · exact hrbox (fun o ho => hmem o
              (List.mem_of_mem_drop (hdropr ▸ ho)))
        · intro h
          have hmem : ∀ o ∈ (objects.drop start).mergeSort (boxLe axis),
              o.wf := fun o ho => h o (List.mem_mergeSort.mp ho)
          refine ⟨?_, ?_, subBox_from_boxes_left _ _,
            subBox_from_boxes_right _ _⟩
          · exact hlwf (fun o ho => hmem o
              (List.mem_of_mem_take (hdropl ▸ ho)))
          · exact hrwf (fun o ho => hmem o
              (List.mem_of_mem_drop (hdropr ▸ ho)))
        · intro ray
          have hperm : (((BVHNode.inner_from_vec f
                (sorted.take (start + split)) start (depth + 1)).1.cands ray)
              ++ ((BVHNode.inner_from_vec f sorted (start + split)
                (depth + 1)).1.cands ray)).Perm
              (Obj.candsList (objects.drop start) ray) := by
            refine List.Perm.trans
              (List.Perm.append (hlcands ray) (hrcands ray)) ?_
            rw [hdropl, hdropr, ← candsList_append, List.take_append_drop]
            exact candsList_perm (List.mergeSort_perm _ _) ray
          simpa [Obj.cands] using hperm

/-- C6: every internal node of a tree built by `BVHNode::from_vec` stores
exactly `AABB::from_boxes` of its two children's boxes (given that any
pre-built nodes among the input objects already satisfy the same
invariant). -/
theorem from_vec_nodeBoxOk (objects : List Obj)
    (h : ∀ o ∈ objects, o.nodeBoxOk) :
    (BVHNode.from_vec objects).nodeBoxOk := by
  cases objects with
  | nil =>
    show Obj.nodeBoxOk (Obj.list [] AABB.new)
    show Obj.nodeBoxOkList []
    trivial
  | cons o rest =>
    have hs := inner_from_vec_spec ((o :: rest).length) (o :: rest) 0 0
      (by simp) (by simp)
    exact hs.2.1 (by simpa using h)

/-- C6 (witness): the invariant for a concrete 3-sphere scene. -/
theorem from_vec_nodeBoxOk_witness :
    (BVHNode.from_vec [Obj.sphere (Vec3.new 0 0 0) 1 0,
      Obj.sphere (Vec3.new 5 0 0) 1 1,
      Obj.sphere (Vec3.new 0 7 0) 1 2]).nodeBoxOk :=
  from_vec_nodeBoxOk _ (by
    intro o ho
    simp only [List.mem_cons, List.mem_singleton] at ho
    rcases ho with rfl | rfl | rfl | h
    · trivial
    · trivial
    · trivial
    · simp at h)

/-! ## C3 — the slab test against the geometry of the ray's line -/

theorem atP_axis (ray : Ray) (t : ℚ) (a : ℕ) :
    (ray.atP t).axis a = ray.origin.axis a + t * ray.direction.axis a := by
  unfold Ray.atP Vec3.axis
  split
  · rfl
  · split
    · rfl
    · rfl

theorem inBox_iff_axis (bb : AABB) (p : Vec3) :
    inBox bb p ↔ ∀ a, a < 3 →
      (bb.axis a).start ≤ p.axis a ∧ p.axis a ≤ (bb.axis a).stop := by
  constructor
  · intro h a ha
    interval_cases a <;>
      simp_all [inBox, AABB.axis, Vec3.axis]
  · intro h
    have h0 := h 0 (by omega)
    have h1 := h 1 (by omega)
    have h2 := h 2 (by omega)
    simp_all [inBox, AABB.axis, Vec3.axis]

/-- One slab iteration cannot reject when two parameters of the ray lie in
the axis slab (closed), and it preserves the bracketing invariant. -/
theorem slab_step_mem (bb : AABB) (ray : Ray) (a : ℕ) (t u : ℚ)
    (htu : t < u) (amin amax : F)
    (hmin : amin ≠ F.nan) (hmax : amax ≠ F.nan)
    (h1 : F.ble amin (F.fin t) = true) (h2 : F.ble (F.fin u) amax = true)
    (hmt : (bb.axis a).start ≤ (ray.atP t).axis a
      ∧ (ray.atP t).axis a ≤ (bb.axis a).stop)
    (hmu : (bb.axis a).start ≤ (ray.atP u).axis a
      ∧ (ray.atP u).axis a ≤ (bb.axis a).stop) :
    ∃ amin' amax', AABB.slab bb ray a (amin, amax) = some (amin', amax')
      ∧ amin' ≠ F.nan ∧ amax' ≠ F.nan
      ∧ F.ble amin' (F.fin t) = true ∧ F.ble (F.fin u) amax' = true := by
  rw [atP_axis] at hmt hmu
  set d := ray.direction.axis a with hd
  set o := ray.origin.axis a with ho
  set lo := (bb.axis a).start with hlo
  set hi := (bb.axis a).stop with hhi
  by_cases hd0 : d = 0
  · -- zero direction: `1/0 = +∞`; the axis imposes no constraint
    rw [hd0] at hmt hmu
    simp only [mul_zero, add_zero] at hmt hmu
    have hinv : invQ d = F.pinf := by rw [invQ, if_pos hd0]
    -- t0 is -∞ (o strictly inside from below) or NaN (o = lo);
    -- t1 is +∞ or NaN
    have ht0 : mulQF (lo - o) F.pinf = F.ninf ∨ mulQF (lo - o) F.pinf = F.nan := by
      rcases lt_or_eq_of_le hmt.1 with h | h
      · left
        rw [mulQF, if_neg (by linarith), if_pos (by linarith)]
      · right
        rw [mulQF, if_neg (by linarith), if_neg (by linarith)]
    have ht1 : mulQF (hi - o) F.pinf = F.pinf ∨ mulQF (hi - o) F.pinf = F.nan := by
      rcases lt_or_eq_of_le hmt.2 with h | h
      · left
        rw [mulQF, if_pos (by linarith)]
      · right
        rw [mulQF, if_neg (by linarith), if_neg (by linarith)]
    have hmin' : F.rmax (mulQF (lo - o) F.pinf) amin = amin := by
      rcases ht0 with h | h <;> rw [h]
      · rw [F.rmax_def, if_neg (by simp), if_neg hmin,
          if_pos (by cases amin <;> simp_all [F.ble])]
      · exact F.rmax_nan_left amin
    have hmax' : F.rmin (mulQF (hi - o) F.pinf) amax = amax := by
      rcases ht1 with h | h <;> rw [h]
      · rw [F.rmin_def, if_neg (by simp), if_neg hmax]
        split
        · rename_i hle
          cases amax <;> simp_all [F.ble]
        · rfl
      · exact F.rmin_nan_left amax
    refine ⟨amin, amax, ?_, hmin, hmax, h1, h2⟩
    simp only [AABB.slab, hinv, ← hd, ← ho, ← hlo, ← hhi]
    rw [show F.blt F.pinf (F.fin 0) = false from rfl]
    simp only [Bool.false_eq_true, if_false, hmin', hmax']
    rw [if_neg ?_]
    have hlt : F.blt amin amax = true :=
      F.blt_of_ble_of_blt h1
        (F.blt_of_blt_of_ble (by simp [F.blt, htu]) h2)
    rw [F.not_ble_of_blt hlt]
    simp
  · -- nonzero direction: finite crossing parameters bracket t and u
    have hinv : invQ d = F.fin d⁻¹ := by rw [invQ, if_neg hd0]
    rcases lt_or_gt_of_ne hd0 with hneg | hpos
    · -- d < 0: swap, s = ((hi-o)·d⁻¹, (lo-o)·d⁻¹)
      have hswap : F.blt (F.fin d⁻¹) (F.fin 0) = true := by
        simp [F.blt]
        exact hneg
      have hle1 : (hi - o) * d⁻¹ ≤ t := by
        rw [← div_eq_mul_inv, div_le_iff_of_neg hneg]
        nlinarith [hmt.2]
      have hle2 : u ≤ (lo - o) * d⁻¹ := by
        rw [← div_eq_mul_inv, le_div_iff_of_neg hneg]
        nlinarith [hmu.1]
      refine ⟨F.rmax (F.fin ((hi - o) * d⁻¹)) amin,
        F.rmin (F.fin ((lo - o) * d⁻¹)) amax, ?_, ?_, ?_, ?_, ?_⟩
      · simp only [AABB.slab, hinv, ← hd, ← ho, ← hlo, ← hhi, hswap,
          if_true, mulQF]
        rw [if_neg ?_]
        have hlt : F.blt (F.rmax (F.fin ((hi - o) * d⁻¹)) amin)
            (F.rmin (F.fin ((lo - o) * d⁻¹)) amax) = true := by
          have ha : F.ble (F.rmax (F.fin ((hi - o) * d⁻¹)) amin)
              (F.fin t) = true :=
            F.rmax_ble h1 (Or.inr (by simp [F.ble, hle1]))
          have hb : F.ble (F.fin u)
              (F.rmin (F.fin ((lo - o) * d⁻¹)) amax) = true :=
            F.ble_rmin h2 (Or.inr (by simp [F.ble, hle2]))
          exact F.blt_of_ble_of_blt ha
            (F.blt_of_blt_of_ble (by simp [F.blt, htu]) hb)
        rw [F.not_ble_of_blt hlt]
        simp
      · exact F.rmax_ne_nan (by simp)
      · exact F.rmin_ne_nan (by simp)
      · exact F.rmax_ble h1 (Or.inr (by simp [F.ble, hle1]))
      · exact F.ble_rmin h2 (Or.inr (by simp [F.ble, hle2]))
    · -- d > 0: no swap, s = ((lo-o)·d⁻¹, (hi-o)·d⁻¹)
      have hswap : F.blt (F.fin d⁻¹) (F.fin 0) = false := by
        simp [F.blt]
        positivity
      have hle1 : (lo - o) * d⁻¹ ≤ t := by
        rw [← div_eq_mul_inv, div_le_iff₀ hpos]
        nlinarith [hmt.1]
      have hle2 : u ≤ (hi - o) * d⁻¹ := by
        rw [← div_eq_mul_inv, le_div_iff₀ hpos]
        nlinarith [hmu.2]
      refine ⟨F.rmax (F.fin ((lo - o) * d⁻¹)) amin,
        F.rmin (F.fin ((hi - o) * d⁻¹)) amax, ?_, ?_, ?_, ?_, ?_⟩
      · simp only [AABB.slab, hinv, ← hd, ← ho, ← hlo, ← hhi, hswap,
          Bool.false_eq_true, if_false, mulQF]
        rw [if_neg ?_]
        have hlt : F.blt (F.rmax (F.fin ((lo - o) * d⁻¹)) amin)
            (F.rmin (F.fin ((hi - o) * d⁻¹)) amax) = true := by
          have ha : F.ble (F.rmax (F.fin ((lo - o) * d⁻¹)) amin)
              (F.fin t) = true :=
            F.rmax_ble h1 (Or.inr (by simp [F.ble, hle1]))
          have hb : F.ble (F.fin u)
              (F.rmin (F.fin ((hi - o) * d⁻¹)) amax) = true :=
            F.ble_rmin h2 (Or.inr (by simp [F.ble, hle2]))
          exact F.blt_of_ble_of_blt ha
            (F.blt_of_blt_of_ble (by simp [F.blt, htu]) hb)
        rw [F.not_ble_of_blt hlt]
        simp
      · exact F.rmax_ne_nan (by simp)
      · exact F.rmin_ne_nan (by simp)
      · exact F.rmax_ble h1 (Or.inr (by simp [F.ble, hle1]))
      · exact F.ble_rmin h2 (Or.inr (by simp [F.ble, hle2]))

theorem F.ble_pinf {a : F} (h : a ≠ F.nan) : F.ble a F.pinf = true := by
  cases a <;> simp_all [F.ble]

theorem F.ninf_ble {a : F} (h : a ≠ F.nan) : F.ble F.ninf a = true := by
  cases a <;> simp_all [F.ble]

theorem F.rmax_pinf_left (a : F) (h : a ≠ F.nan) :
    F.rmax F.pinf a = F.pinf := by
  cases a <;> simp_all [F.rmax, F.ble]

theorem F.rmin_ninf_left (a : F) (h : a ≠ F.nan) :
    F.rmin F.ninf a = F.ninf := by
  cases a <;> simp_all [F.rmin, F.ble]

/-- One slab iteration, read backwards: if it accepts, then every parameter
bracketed by the updated interval is bracketed by the previous interval and
lies in this axis's (closed) slab. -/
theorem slab_step_some (bb : AABB) (ray : Ray) (a : ℕ)
    (amin amax amin' amax' : F)
    (hmin : amin ≠ F.nan) (hmax : amax ≠ F.nan)
    (hwfa : (bb.axis a).start ≤ (bb.axis a).stop)
    (h : AABB.slab bb ray a (amin, amax) = some (amin', amax')) :
    amin' ≠ F.nan ∧ amax' ≠ F.nan ∧ F.blt amin' amax' = true
    ∧ ∀ t : ℚ, F.ble amin' (F.fin t) = true → F.ble (F.fin t) amax' = true →
        F.ble amin (F.fin t) = true ∧ F.ble (F.fin t) amax = true
        ∧ (bb.axis a).start ≤ (ray.atP t).axis a
        ∧ (ray.atP t).axis a ≤ (bb.axis a).stop := by
  have hax : ∀ t : ℚ, (ray.atP t).axis a
      = ray.origin.axis a + t * ray.direction.axis a := fun t => atP_axis ray t a
  set d := ray.direction.axis a with hd
  set o := ray.origin.axis a with ho
  set lo := (bb.axis a).start with hlo
  set hi := (bb.axis a).stop with hhi
  by_cases hd0 : d = 0
  · have hinv : invQ d = F.pinf := by rw [invQ, if_pos hd0]
    simp only [AABB.slab, hinv, ← hd, ← ho, ← hlo, ← hhi,
      show F.blt F.pinf (F.fin 0) = false from rfl, Bool.false_eq_true,
      if_false] at h
    rcases lt_trichotomy o lo with holo | holo | holo
    · -- origin strictly below the slab: the axis forces a rejection
      exfalso
      have ht0 : mulQF (lo - o) F.pinf = F.pinf := by
        rw [mulQF, if_pos (by linarith)]
      have ht1 : mulQF (hi - o) F.pinf = F.pinf := by
        rw [mulQF, if_pos (by linarith)]
      rw [ht0, ht1, F.rmax_pinf_left _ hmin] at h
      rw [if_pos (F.ble_pinf (F.rmin_ne_nan (by simp)))] at h
      exact absurd h (by simp)
    · -- origin exactly at the lower face: NaN, no constraint
      have ht0 : mulQF (lo - o) F.pinf = F.nan := by
        rw [mulQF, if_neg (by linarith), if_neg (by linarith)]
      rcases lt_or_eq_of_le (holo ▸ hwfa) with hohi | hohi
      · have ht1 : mulQF (hi - o) F.pinf = F.pinf := by
          rw [mulQF, if_pos (by linarith)]
        rw [ht0, ht1, F.rmax_nan_left] at h
        have hmax2 : F.rmin F.pinf amax = amax := by
          cases amax <;> simp_all [F.rmin, F.ble]
        rw [hmax2] at h
        split at h
        · exact absurd h (by simp)
        · rename_i hguard
          rw [Option.some.injEq, Prod.mk.injEq] at h
          obtain ⟨rfl, rfl⟩ := h
          refine ⟨hmin, hmax, ?_, ?_⟩
          · exact F.blt_of_not_ble hmax hmin (by simpa using hguard)
          · intro t h1 h2
            refine ⟨h1, h2, ?_, ?_⟩ <;> rw [hax, hd0]
            · linarith
            · linarith
      · -- degenerate axis, origin on it: both products NaN
        have ht1 : mulQF (hi - o) F.pinf = F.nan := by
          rw [mulQF, if_neg (by linarith), if_neg (by linarith)]
        rw [ht0, ht1, F.rmax_nan_left, F.rmin_nan_left] at h
        split at h
        · exact absurd h (by simp)
        · rename_i hguard
          rw [Option.some.injEq, Prod.mk.injEq] at h
          obtain ⟨rfl, rfl⟩ := h
          refine ⟨hmin, hmax, ?_, ?_⟩
          · exact F.blt_of_not_ble hmax hmin (by simpa using hguard)
          · intro t h1 h2
            refine ⟨h1, h2, ?_, ?_⟩ <;> rw [hax, hd0]
            · linarith
            · linarith
    · -- origin above the lower face
      rcases lt_trichotomy o hi with hohi | hohi | hohi
      · -- strictly inside: -∞/+∞, no constraint
        have ht0 : mulQF (lo - o) F.pinf = F.ninf := by
          rw [mulQF, if_neg (by linarith), if_pos (by linarith)]
        have ht1 : mulQF (hi - o) F.pinf = F.pinf := by
          rw [mulQF, if_pos (by linarith)]
        rw [ht0, ht1] at h
        have hmin2 : F.rmax F.ninf amin = amin := by
          cases amin <;> simp_all [F.rmax, F.ble]
        have hmax2 : F.rmin F.pinf amax = amax := by
          cases amax <;> simp_all [F.rmin, F.ble]
        rw [hmin2, hmax2] at h
        split at h
        · exact absurd h (by simp)
        · rename_i hguard
          rw [Option.some.injEq, Prod.mk.injEq] at h
          obtain ⟨rfl, rfl⟩ := h
          refine ⟨hmin, hmax, ?_, ?_⟩
          · exact F.blt_of_not_ble hmax hmin (by simpa using hguard)
          · intro t h1 h2
            refine ⟨h1, h2, ?_, ?_⟩ <;> rw [hax, hd0]
            · linarith
            · linarith
      · -- origin exactly at the upper face: -∞/NaN, no constraint
        have ht0 : mulQF (lo - o) F.pinf = F.ninf := by
          rw [mulQF, if_neg (by linarith), if_pos (by linarith)]
        have ht1 : mulQF (hi - o) F.pinf = F.nan := by
          rw [mulQF, if_neg (by linarith), if_neg (by linarith)]
        rw [ht0, ht1, F.rmin_nan_left] at h
        have hmin2 : F.rmax F.ninf amin = amin := by
          cases amin <;> simp_all [F.rmax, F.ble]
        rw [hmin2] at h
        split at h
        · exact absurd h (by simp)
        · rename_i hguard
          rw [Option.some.injEq, Prod.mk.injEq] at h
          obtain ⟨rfl, rfl⟩ := h
          refine ⟨hmin, hmax, ?_, ?_⟩
          · exact F.blt_of_not_ble hmax hmin (by simpa using hguard)
          · intro t h1 h2
            refine ⟨h1, h2, ?_, ?_⟩ <;> rw [hax, hd0]
            · linarith
            · linarith
      · -- origin strictly above the slab: the axis forces a rejection
        exfalso
        have ht0 : mulQF (lo - o) F.pinf = F.ninf := by
          rw [mulQF, if_neg (by linarith), if_pos (by linarith)]
        have ht1 : mulQF (hi - o) F.pinf = F.ninf := by
          rw [mulQF, if_neg (by linarith), if_pos (by linarith)]
        rw [ht0, ht1, F.rmin_ninf_left _ hmax] at h
        rw [if_pos (F.ninf_ble (F.rmax_ne_nan (by simp)))] at h
        exact absurd h (by simp)
  · have hinv : invQ d = F.fin d⁻¹ := by rw [invQ, if_neg hd0]
    rcases lt_or_gt_of_ne hd0 with hneg | hpos
    · -- d < 0: slabs swap
      have hswap : F.blt (F.fin d⁻¹) (F.fin 0) = true := by
        simp [F.blt]
        exact hneg
      simp only [AABB.slab, hinv, ← hd, ← ho, ← hlo, ← hhi, hswap, if_true,
        mulQF] at h
      split at h
      · exact absurd h (by simp)
      · rename_i hguard
        rw [Option.some.injEq, Prod.mk.injEq] at h
        obtain ⟨rfl, rfl⟩ := h
        have hm'a : F.rmax (F.fin ((hi - o) * d⁻¹)) amin ≠ F.nan :=
          F.rmax_ne_nan (by simp)
        have hm'b : F.rmin (F.fin ((lo - o) * d⁻¹)) amax ≠ F.nan :=
          F.rmin_ne_nan (by simp)
        refine ⟨hm'a, hm'b, ?_, ?_⟩
        · exact F.blt_of_not_ble hm'b hm'a (by simpa using hguard)
        · intro t h1 h2
          have hba : F.ble (F.fin ((hi - o) * d⁻¹)) (F.fin t) = true :=
            F.ble_trans (F.ble_rmax_left (by simp)) h1
          have hbb : F.ble (F.fin t) (F.fin ((lo - o) * d⁻¹)) = true :=
            F.ble_trans h2 (F.rmin_ble_left (by simp))
          rw [F.ble_fin_fin] at hba hbb
          simp only [decide_eq_true_eq] at hba hbb
          refine ⟨F.ble_trans (F.ble_rmax_right hmin) h1,
            F.ble_trans h2 (F.rmin_ble_right hmax), ?_, ?_⟩ <;> rw [hax]
          · rw [← div_eq_mul_inv, le_div_iff_of_neg hneg] at hbb
            nlinarith [hbb]
          · rw [← div_eq_mul_inv, div_le_iff_of_neg hneg] at hba
            nlinarith [hba]
    · -- d > 0: no swap
      have hswap : F.blt (F.fin d⁻¹) (F.fin 0) = false := by
        simp [F.blt]
        positivity
      simp only [AABB.slab, hinv, ← hd, ← ho, ← hlo, ← hhi, hswap,
        Bool.false_eq_true, if_false, mulQF] at h
      split at h
      · exact absurd h (by simp)
      · rename_i hguard
        rw [Option.some.injEq, Prod.mk.injEq] at h
        obtain ⟨rfl, rfl⟩ := h
        have hm'a : F.rmax (F.fin ((lo - o) * d⁻¹)) amin ≠ F.nan :=
          F.rmax_ne_nan (by simp)
        have hm'b : F.rmin (F.fin ((hi - o) * d⁻¹)) amax ≠ F.nan :=
          F.rmin_ne_nan (by simp)
        refine ⟨hm'a, hm'b, ?_, ?_⟩
        · exact F.blt_of_not_ble hm'b hm'a (by simpa using hguard)
        · intro t h1 h2
          have hba : F.ble (F.fin ((lo - o) * d⁻¹)) (F.fin t) = true :=
            F.ble_trans (F.ble_rmax_left (by simp)) h1
          have hbb : F.ble (F.fin t) (F.fin ((hi - o) * d⁻¹)) = true :=
            F.ble_trans h2 (F.rmin_ble_left (by simp))
          rw [F.ble_fin_fin] at hba hbb
          simp only [decide_eq_true_eq] at hba hbb
          refine ⟨F.ble_trans (F.ble_rmax_right hmin) h1,
            F.ble_trans h2 (F.rmin_ble_right hmax), ?_, ?_⟩ <;> rw [hax]
          · rw [← div_eq_mul_inv, div_le_iff₀ hpos] at hba
            nlinarith [hba]
          · rw [← div_eq_mul_inv, le_div_iff₀ hpos] at hbb
            nlinarith [hbb]

theorem F.exists_between_blt {a b : F} (ha : a ≠ F.nan) (hb : b ≠ F.nan)
    (h : F.blt a b = true) :
    ∃ t u : ℚ, t < u ∧ F.ble a (F.fin t) = true ∧ F.ble (F.fin t) b = true
      ∧ F.ble a (F.fin u) = true ∧ F.ble (F.fin u) b = true := by
  cases a with
  | nan => simp at ha
  | ninf =>
    cases b with
    | nan => simp at hb
    | ninf => simp [F.blt] at h
    | pinf =>
      exact ⟨0, 1, by norm_num, by simp [F.ble], by simp [F.ble],
        by simp [F.ble], by simp [F.ble]⟩
    | fin β =>
      exact ⟨β - 1, β, by norm_num, by simp [F.ble], by simp [F.ble],
        by simp [F.ble], by simp [F.ble]⟩
  | pinf => simp [F.blt] at h
  | fin α =>
    cases b with
    | nan => simp at hb
    | ninf => simp [F.blt] at h
    | pinf =>
      exact ⟨α, α + 1, by norm_num, by simp [F.ble], by simp [F.ble],
        by simp [F.ble], by simp [F.ble]⟩
    | fin β =>
      have hab : α < β := by simpa [F.blt] using h
      exact ⟨α, β, hab, by simp [F.ble], by simp [F.ble, le_of_lt hab],
        by simp [F.ble, le_of_lt hab], by simp [F.ble]⟩

/-- A pair of contained parameters survives all three slabs: the slab test
cannot report a miss. -/
theorem aabb_hit_of_pair (bb : AABB) (ray : Ray)
    (h : ∃ t u : ℚ, t < u ∧ inBox bb (ray.atP t) ∧ inBox bb (ray.atP u)) :
    AABB.hit bb ray ≠ none := by
  obtain ⟨t, u, htu, hmt, hmu⟩ := h
  have hmta := (inBox_iff_axis bb _).mp hmt
  have hmua := (inBox_iff_axis bb _).mp hmu
  obtain ⟨a1, b1, hs1, hn1a, hn1b, hb1a, hb1b⟩ :=
    slab_step_mem bb ray 0 t u htu F.ninf F.pinf (by simp) (by simp)
      (by simp [F.ble]) (by simp [F.ble]) (hmta 0 (by omega))
      (hmua 0 (by omega))
  obtain ⟨a2, b2, hs2, hn2a, hn2b, hb2a, hb2b⟩ :=
    slab_step_mem bb ray 1 t u htu a1 b1 hn1a hn1b hb1a hb1b
      (hmta 1 (by omega)) (hmua 1 (by omega))
  obtain ⟨a3, b3, hs3, hn3a, hn3b, hb3a, hb3b⟩ :=
    slab_step_mem bb ray 2 t u htu a2 b2 hn2a hn2b hb2a hb2b
      (hmta 2 (by omega)) (hmua 2 (by omega))
  intro hcon
  unfold AABB.hit at hcon
  simp only [hs1, hs2, hs3] at hcon
  exact absurd hcon (by simp)

/-- C3 (amended): for a box satisfying the data-model invariant
(`start ≤ end` per axis), `AABB::hit` returns `None` iff the ray's *full
line* (not clipped to `t ≥ 0`) never enters the box — i.e. no two distinct
parameters have their points inside the closed box — and any returned
interval satisfies `start < end` (hence `start ≤ end`).  This holds also
for rays with zero direction components, via the modeled IEEE infinity/NaN
propagation. -/
theorem aabb_hit_characterization (bb : AABB) (ray : Ray) (hwf : wfBox bb) :
    (AABB.hit bb ray = none ↔
      ¬ ∃ t u : ℚ, t < u ∧ inBox bb (ray.atP t) ∧ inBox bb (ray.atP u))
    ∧ ∀ i : FRange, AABB.hit bb ray = some i → F.blt i.start i.stop = true := by
  have hwfa : ∀ a, (bb.axis a).start ≤ (bb.axis a).stop := by
    intro a
    unfold AABB.axis
    split
    · exact hwf.2.1
    · split
      · exact hwf.2.2
      · exact hwf.1
  -- an accepted interval produces two contained parameters
  have some_to_mem : ∀ i : FRange, AABB.hit bb ray = some i →
      F.blt i.start i.stop = true
      ∧ ∃ t u : ℚ, t < u ∧ inBox bb (ray.atP t) ∧ inBox bb (ray.atP u) := by
    intro i hi
    unfold AABB.hit at hi
    cases h0 : AABB.slab bb ray 0 (F.ninf, F.pinf) with
    | none =>
      simp only [h0] at hi
      exact absurd hi (by simp)
    | some s1 =>
      simp only [h0] at hi
      cases h1 : AABB.slab bb ray 1 s1 with
      | none =>
        simp only [h0, h1] at hi
        exact absurd hi (by simp)
      | some s2 =>
        simp only [h1] at hi
        cases h2 : AABB.slab bb ray 2 s2 with
        | none =>
          simp only [h0, h1, h2] at hi
          exact absurd hi (by simp)
        | some s3 =>
          simp only [h2] at hi
          rw [Option.some.injEq] at hi
          obtain ⟨hn1a, hn1b, hlt1, hp1⟩ :=
            slab_step_some bb ray 0 F.ninf F.pinf s1.1 s1.2 (by simp)
              (by simp) (hwfa 0) h0
          obtain ⟨hn2a, hn2b, hlt2, hp2⟩ :=
            slab_step_some bb ray 1 s1.1 s1.2 s2.1 s2.2 hn1a hn1b
              (hwfa 1) h1
          obtain ⟨hn3a, hn3b, hlt3, hp3⟩ :=
            slab_step_some bb ray 2 s2.1 s2.2 s3.1 s3.2 hn2a hn2b
              (hwfa 2) h2
          constructor
          · rw [← hi]
            exact hlt3
          · obtain ⟨t, u, htu, hta, htb, hua, hub⟩ :=
              F.exists_between_blt hn3a hn3b hlt3
            have hmem : ∀ v : ℚ, F.ble s3.1 (F.fin v) = true →
                F.ble (F.fin v) s3.2 = true → inBox bb (ray.atP v) := by
              intro v hva hvb
              obtain ⟨hva2, hvb2, hm2a, hm2b⟩ := hp3 v hva hvb
              obtain ⟨hva1, hvb1, hm1a, hm1b⟩ := hp2 v hva2 hvb2
              obtain ⟨_, _, hm0a, hm0b⟩ := hp1 v hva1 hvb1
              refine (inBox_iff_axis bb _).mpr ?_
              intro a ha
              interval_cases a
              · exact ⟨hm0a, hm0b⟩
              · exact ⟨hm1a, hm1b⟩
              · exact ⟨hm2a, hm2b⟩
            exact ⟨t, u, htu, hmem t hta htb, hmem u hua hub⟩
  constructor
  · constructor
    · intro hnone hex
      exact aabb_hit_of_pair bb ray hex hnone
    · intro hnex
      cases hh : AABB.hit bb ray with
      | none => rfl
      | some i => exact absurd ((some_to_mem i hh).2) hnex
  · intro i hi
    exact (some_to_mem i hi).1

/-- C3 (witness): the characterization at a concrete box and ray. -/
theorem aabb_hit_characterization_witness :
    (AABB.hit ⟨⟨0, 1⟩, ⟨0, 1⟩, ⟨0, 1⟩⟩
        (Ray.new (Vec3.new (-1) (1 / 2) (1 / 2)) (Vec3.new 1 0 0) 0) = none
      ↔ ¬ ∃ t u : ℚ, t < u
        ∧ inBox ⟨⟨0, 1⟩, ⟨0, 1⟩, ⟨0, 1⟩⟩
          ((Ray.new (Vec3.new (-1) (1 / 2) (1 / 2)) (Vec3.new 1 0 0) 0).atP t)
        ∧ inBox ⟨⟨0, 1⟩, ⟨0, 1⟩, ⟨0, 1⟩⟩
          ((Ray.new (Vec3.new (-1) (1 / 2) (1 / 2)) (Vec3.new 1 0 0) 0).atP u))
    ∧ ∀ i : FRange, AABB.hit ⟨⟨0, 1⟩, ⟨0, 1⟩, ⟨0, 1⟩⟩
        (Ray.new (Vec3.new (-1) (1 / 2) (1 / 2)) (Vec3.new 1 0 0) 0) = some i
      → F.blt i.start i.stop = true :=
  aabb_hit_characterization ⟨⟨0, 1⟩, ⟨0, 1⟩, ⟨0, 1⟩⟩
    (Ray.new (Vec3.new (-1) (1 / 2) (1 / 2)) (Vec3.new 1 0 0) 0)
    (by norm_num [wfBox])

/-- C3 (counterexample): a box lying entirely behind the ray origin.  The
ray's line restricted to `t ≥ 0` never enters the box, yet `AABB::hit`
returns `Some((-2)..(-1))` — the test is not clipped to `t ≥ 0`, refuting
the claim as stated. -/
theorem aabb_hit_behind_origin :
    AABB.hit ⟨⟨1, 2⟩, ⟨1, 2⟩, ⟨1, 2⟩⟩
        (Ray.new (Vec3.new 3 3 3) (Vec3.new 1 1 1) 0)
      = some ⟨F.fin (-2), F.fin (-1)⟩
    ∧ ∀ t : ℚ, 0 ≤ t →
      ¬ inBox ⟨⟨1, 2⟩, ⟨1, 2⟩, ⟨1, 2⟩⟩
        ((Ray.new (Vec3.new 3 3 3) (Vec3.new 1 1 1) 0).atP t) := by
  constructor
  · norm_num [AABB.hit, AABB.slab, AABB.axis, invQ, mulQF, Vec3.axis,
      Ray.new, Vec3.new, F.rmax, F.rmin, F.blt, F.ble, F.rmax_def,
      F.rmin_def]
  · intro t ht h
    obtain ⟨h1, h2, _⟩ := h
    simp only [Ray.atP, Ray.new, Vec3.new, Vec3.add_def, Vec3.smul_def] at h2
    norm_num at h2
    linarith

/-! ## C2 — geometric soundness of the box pruning -/

theorem exclusive_iff_exIn (s e v : F) :
    FRange.exclusive ⟨s, e⟩ v = true ↔ exIn s e v := by
  simp [FRange.exclusive, exIn, Bool.and_eq_true]

theorem exIn_fin {s e v : F} (h : exIn s e v) : ∃ q : ℚ, v = F.fin q := by
  obtain ⟨h1, h2⟩ := h
  cases v with
  | nan => simp [F.blt] at h2
  | ninf => cases s <;> simp [F.blt] at h1
  | pinf => cases e <;> simp [F.blt] at h2
  | fin q => exact ⟨q, rfl⟩

theorem F.ble_antisymm {a b : F} (ha : a ≠ F.nan)
    (h1 : F.ble a b = true) (h2 : F.ble b a = true) : a = b := by
  cases a <;> cases b <;> simp_all [F.ble]
  exact le_antisymm h1 h2

theorem Vec3.length_squared_expand (oc d : Vec3) (t : ℚ) :
    (oc + t • d).length_squared
      = oc.length_squared + 2 * t * oc.dot d + t ^ 2 * d.length_squared := by
  cases oc; cases d
  simp [Vec3.length_squared, Vec3.add_def, Vec3.smul_def, Vec3.dot]
  ring

theorem atP_sub (ray : Ray) (cc : Vec3) (t : ℚ) :
    ray.atP t - cc = (ray.origin - cc) + t • ray.direction := by
  cases ray with
  | mk o d time =>
    cases o; cases d; cases cc
    simp [Ray.atP, Vec3.add_def, Vec3.sub_def, Vec3.smul_def]
    refine ⟨by ring, by ring, by ring⟩

/-- Both quadratic roots computed by `calculate_hit` give points inside the
closed ball (the square root is an under-approximation, so the computed
roots land inside, not outside). -/
theorem root_in_ball (oc d : Vec3) (r q s : ℚ)
    (hm : 0 < d.length_squared) (_hs : 0 ≤ s)
    (hs2 : s ^ 2 ≤ (oc.dot d) ^ 2
      - d.length_squared * (oc.length_squared - r ^ 2))
    (hq : q * d.length_squared = -(oc.dot d) + s
      ∨ q * d.length_squared = -(oc.dot d) - s) :
    (oc + q • d).length_squared ≤ r ^ 2 := by
  rw [Vec3.length_squared_expand]
  set m := d.length_squared with hmdef
  set al := oc.dot d with haldef
  have key : m * (oc.length_squared + 2 * q * al + q ^ 2 * m)
      = m * oc.length_squared + 2 * al * (q * m) + (q * m) ^ 2 := by ring
  rcases hq with hq | hq
  · have : m * (oc.length_squared + 2 * q * al + q ^ 2 * m) ≤ m * r ^ 2 := by
      rw [key, hq]
      nlinarith [hs2]
    exact le_of_mul_le_mul_left this hm
  · have : m * (oc.length_squared + 2 * q * al + q ^ 2 * m) ≤ m * r ^ 2 := by
      rw [key, hq]
      nlinarith [hs2]
    exact le_of_mul_le_mul_left this hm

theorem qmin_pm (a r : ℚ) : qmin (a - r) (a + r) = a - |r| := by
  rcases abs_cases r with ⟨h1, h2⟩ | ⟨h1, h2⟩
  · rw [qmin_eq_min, h1, min_eq_left (by linarith)]
  · rw [qmin_eq_min, h1, min_eq_right (by linarith)]
    ring

theorem qmax_pm (a r : ℚ) : qmax (a - r) (a + r) = a + |r| := by
  rcases abs_cases r with ⟨h1, h2⟩ | ⟨h1, h2⟩
  · rw [qmax_eq_max, h1, max_eq_right (by linarith)]
  · rw [qmax_eq_max, h1, max_eq_left (by linarith)]
    ring

/-- The box `Sphere::new` computes is exactly the ball box of radius `|r|`. -/
theorem sphere_box_eq_ballBox (c : Vec3) (r : ℚ) :
    AABB.from_vecs (c - Vec3.new r r r) (c + Vec3.new r r r)
      = ballBox c |r| := by
  cases c with
  | mk x y z =>
    simp only [AABB.from_vecs, Vec3.sub_def, Vec3.add_def, Vec3.new, ballBox]
    rw [qmin_pm, qmax_pm, qmin_pm, qmax_pm, qmin_pm, qmax_pm]

theorem subBox_refl (a : AABB) : AABB.subBox a a :=
  ⟨le_refl _, le_refl _, le_refl _, le_refl _, le_refl _, le_refl _⟩

theorem subBox_trans {a b c : AABB} (h1 : AABB.subBox a b)
    (h2 : AABB.subBox b c) : AABB.subBox a c := by
  obtain ⟨x1, x2, y1, y2, z1, z2⟩ := h1
  obtain ⟨x1', x2', y1', y2', z1', z2'⟩ := h2
  exact ⟨le_trans x1' x1, le_trans x2 x2', le_trans y1' y1,
    le_trans y2 y2', le_trans z1' z1, le_trans z2 z2'⟩

/-- The interpolated ball box of a moving sphere stays inside the stored
union box for times in `[0, 1]`. -/
theorem msphere_interp_subBox (c d : Vec3) (r τ : ℚ)
    (h0 : 0 ≤ τ) (h1 : τ ≤ 1) :
    AABB.subBox (ballBox ((1 - τ) • c + τ • d) |r|)
      (AABB.from_boxes (ballBox c |r|) (ballBox d |r|)) := by
  cases c with
  | mk cx cy cz =>
    cases d with
    | mk dx dy dz =>
      simp only [ballBox, AABB.from_boxes, QRange.union, qmin_eq_min,
        qmax_eq_max, Vec3.add_def, Vec3.smul_def, AABB.subBox]
      refine ⟨?_, ?_, ?_, ?_, ?_, ?_⟩
      · rcases le_total cx dx with h | h
        · refine le_trans (min_le_left _ _) (by nlinarith)
        · refine le_trans (min_le_right _ _) (by nlinarith)
      · rcases le_total cx dx with h | h
        · refine le_trans (by nlinarith) (le_max_right _ _)
        · refine le_trans (by nlinarith) (le_max_left _ _)
      · rcases le_total cy dy with h | h
        · refine le_trans (min_le_left _ _) (by nlinarith)
        · refine le_trans (min_le_right _ _) (by nlinarith)
      · rcases le_total cy dy with h | h
        · refine le_trans (by nlinarith) (le_max_right _ _)
        · refine le_trans (by nlinarith) (le_max_left _ _)
      · rcases le_total cz dz with h | h
        · refine le_trans (min_le_left _ _) (by nlinarith)
        · refine le_trans (min_le_right _ _) (by nlinarith)
      · rcases le_total cz dz with h | h
        · refine le_trans (by nlinarith) (le_max_right _ _)
        · refine le_trans (by nlinarith) (le_max_left _ _)

/-- Every finite sphere root lands inside the closed ball of radius `|r|`
around the center: the computed square root under-approximates, so both
roots are real-root under-approximations and stay inside. -/
theorem sphereRoots_in_ball (center : Vec3) (r : ℚ) (ray : Ray) (q : ℚ)
    (hq : F.fin q ∈ sphereRoots center r ray) :
    distSq (ray.atP q) center ≤ |r| ^ 2 := by
  unfold sphereRoots at hq
  set oc := ray.origin - center with hoc
  set m := ray.direction.length_squared with hmdef
  set al := oc.dot ray.direction with haldef
  set disc := al ^ 2 - m * (oc.length_squared - r ^ 2) with hdiscdef
  by_cases hneg : disc < 0
  · simp only [if_pos hneg, List.not_mem_nil] at hq
  · simp only [if_neg hneg, List.mem_cons, List.not_mem_nil, or_false] at hq
    have hm0 : m ≠ 0 := by
      intro hm
      rcases hq with h | h <;>
      · rw [hm] at h
        unfold fdivQ at h
        rw [if_pos rfl] at h
        split_ifs at h
    have hmpos : 0 < m :=
      lt_of_le_of_ne (Vec3.length_squared_nonneg _) (Ne.symm hm0)
    have hqm : q * m = -al + ratSqrt disc ∨ q * m = -al - ratSqrt disc := by
      rcases hq with h | h
      · right
        unfold fdivQ at h
        rw [if_neg hm0] at h
        have hqe : q = (-al - ratSqrt disc) / m := F.fin.inj h
        rw [hqe, div_mul_cancel₀ _ hm0]
      · left
        unfold fdivQ at h
        rw [if_neg hm0] at h
        have hqe : q = (-al + ratSqrt disc) / m := F.fin.inj h
        rw [hqe, div_mul_cancel₀ _ hm0]
    have hball : (oc + q • ray.direction).length_squared ≤ r ^ 2 :=
      root_in_ball oc ray.direction r q (ratSqrt disc) hmpos
        (ratSqrt_nonneg disc) (ratSqrt_sq_le (not_lt.mp hneg)) hqm
    show (ray.atP q - center).length_squared ≤ |r| ^ 2
    rw [atP_sub, sq_abs]
    exact hball

mutual

/-- Every finite candidate parameter of a well-formed object gives a point
inside some ball whose axis box is contained in the object's bounding box
(for ray times in `[0, 1]`). -/
theorem cands_in_ball (o : Obj) (ray : Ray) (hwf : o.wf)
    (ht0 : 0 ≤ ray.time) (ht1 : ray.time ≤ 1) (q : ℚ)
    (hq : F.fin q ∈ o.cands ray) :
    ∃ cc ρ, 0 < ρ ∧ distSq (ray.atP q) cc ≤ ρ ^ 2
      ∧ AABB.subBox (ballBox cc ρ) o.bounding_box := by
  match o with
  | .sphere c r mat =>
    simp only [Obj.cands] at hq
    simp only [Obj.wf] at hwf
    refine ⟨c, |r|, abs_pos.mpr hwf, sphereRoots_in_ball c r ray q hq, ?_⟩
    simp only [Obj.bounding_box]
    rw [sphere_box_eq_ballBox]
    exact subBox_refl _
  | .msphere c r mat d =>
    simp only [Obj.cands] at hq
    simp only [Obj.wf] at hwf
    refine ⟨(1 - ray.time) • c + ray.time • d, |r|, abs_pos.mpr hwf,
      sphereRoots_in_ball _ r ray q hq, ?_⟩
    simp only [Obj.bounding_box]
    rw [sphere_box_eq_ballBox c, sphere_box_eq_ballBox d]
    exact msphere_interp_subBox c d r ray.time ht0 ht1
  | .list objs bb =>
    simp only [Obj.cands] at hq
    simp only [Obj.wf] at hwf
    simpa only [Obj.bounding_box] using
      candsList_in_ball objs bb ray hwf ht0 ht1 q hq
  | .node l rgt bb =>
    simp only [Obj.cands] at hq
    simp only [Obj.wf] at hwf
    rcases List.mem_append.mp hq with h | h
    · obtain ⟨cc, ρ, h1, h2, h3⟩ :=
        cands_in_ball l ray hwf.1 ht0 ht1 q h
      exact ⟨cc, ρ, h1, h2, by
        simpa only [Obj.bounding_box] using subBox_trans h3 hwf.2.2.1⟩
    · obtain ⟨cc, ρ, h1, h2, h3⟩ :=
        cands_in_ball rgt ray hwf.2.1 ht0 ht1 q h
      exact ⟨cc, ρ, h1, h2, by
        simpa only [Obj.bounding_box] using subBox_trans h3 hwf.2.2.2⟩

/-- List form of `cands_in_ball`: a well-formed member list yields balls
inside the common box. -/
theorem candsList_in_ball (objs : List Obj) (bb : AABB) (ray : Ray)
    (hwf : Obj.wfList objs bb)
    (ht0 : 0 ≤ ray.time) (ht1 : ray.time ≤ 1) (q : ℚ)
    (hq : F.fin q ∈ Obj.candsList objs ray) :
    ∃ cc ρ, 0 < ρ ∧ distSq (ray.atP q) cc ≤ ρ ^ 2
      ∧ AABB.subBox (ballBox cc ρ) bb := by
  match objs with
  | [] => simp only [Obj.candsList, List.not_mem_nil] at hq
  | o :: rest =>
    simp only [Obj.candsList] at hq
    simp only [Obj.wfList] at hwf
    rcases List.mem_append.mp hq with h | h
    · obtain ⟨cc, ρ, h1, h2, h3⟩ :=
        cands_in_ball o ray hwf.1.1 ht0 ht1 q h
      exact ⟨cc, ρ, h1, h2, subBox_trans h3 hwf.1.2⟩
    · exact candsList_in_ball rest bb ray hwf.2 ht0 ht1 q h

end

/-- Each axis gap is bounded by the squared distance. -/
theorem distSq_axis_le (p cc : Vec3) (a : ℕ) :
    (p.axis a - cc.axis a) ^ 2 ≤ distSq p cc := by
  cases p with
  | mk px py pz =>
    cases cc with
    | mk cx cy cz =>
      unfold distSq Vec3.axis
      rw [Vec3.sub_def]
      unfold Vec3.length_squared
      split_ifs <;> dsimp only <;>
        nlinarith [sq_nonneg (px - cx), sq_nonneg (py - cy),
          sq_nonneg (pz - cz)]

theorem abs_bounds_of_sq_le {x ρ : ℚ} (h : x ^ 2 ≤ ρ ^ 2) (hρ : 0 ≤ ρ) :
    -ρ ≤ x ∧ x ≤ ρ :=
  ⟨by nlinarith, by nlinarith⟩

theorem abs_lt_of_sq_lt {x ρ : ℚ} (h : x ^ 2 < ρ ^ 2) (hρ : 0 ≤ ρ) :
    |x| < ρ := by
  by_contra hcon
  push_neg at hcon
  have h1 := sq_abs x
  nlinarith [abs_nonneg x]

theorem Vec3.axis_sub (a b : Vec3) (n : ℕ) :
    (a - b).axis n = a.axis n - b.axis n := by
  cases a; cases b
  rw [Vec3.sub_def]
  unfold Vec3.axis
  split_ifs <;> rfl

theorem ballBox_axis (c : Vec3) (ρ : ℚ) (a : ℕ) :
    (ballBox c ρ).axis a = ⟨c.axis a - ρ, c.axis a + ρ⟩ := by
  cases c
  unfold ballBox AABB.axis Vec3.axis
  split_ifs <;> rfl

theorem subBox_axis {A B : AABB} (h : AABB.subBox A B) (a : ℕ) :
    (B.axis a).start ≤ (A.axis a).start
      ∧ (A.axis a).stop ≤ (B.axis a).stop := by
  obtain ⟨x1, x2, y1, y2, z1, z2⟩ := h
  unfold AABB.axis
  split_ifs <;> exact ⟨by assumption, by assumption⟩

/-- A point whose axis gaps to the ball center are at most `ρ` lies in any
box containing the ball box. -/
theorem inBox_of_ball {bb : AABB} {cc : Vec3} {ρ : ℚ} {p : Vec3}
    (hsub : AABB.subBox (ballBox cc ρ) bb)
    (hax : ∀ a, a < 3 → -ρ ≤ p.axis a - cc.axis a ∧ p.axis a - cc.axis a ≤ ρ) :
    inBox bb p := by
  rw [inBox_iff_axis]
  intro a ha
  have hsa := subBox_axis hsub a
  rw [ballBox_axis] at hsa
  dsimp only at hsa
  obtain ⟨hl, hr⟩ := hax a ha
  exact ⟨le_trans hsa.1 (by linarith), le_trans (by linarith) hsa.2⟩

/-- A point within squared distance `ρ^2` of the center lies in any box
containing the ball box. -/
theorem inBox_of_distSq {bb : AABB} {cc : Vec3} {ρ : ℚ} {p : Vec3}
    (hρ : 0 ≤ ρ) (hsub : AABB.subBox (ballBox cc ρ) bb)
    (hd : distSq p cc ≤ ρ ^ 2) : inBox bb p := by
  refine inBox_of_ball hsub (fun a ha => ?_)
  exact abs_bounds_of_sq_le (le_trans (distSq_axis_le p cc a) hd) hρ

/-- The squared norm along the ray, written relative to its vertex (the
parameter of closest approach). -/
theorem quad_vertex (oc d : Vec3) (hm : d.length_squared ≠ 0) (t : ℚ) :
    (oc + t • d).length_squared
      = (oc + (-(oc.dot d) / d.length_squared) • d).length_squared
        + (t + oc.dot d / d.length_squared) ^ 2 * d.length_squared := by
  rw [Vec3.length_squared_expand, Vec3.length_squared_expand]
  field_simp
  ring

/-- At the vertex parameter the offset is orthogonal to the direction. -/
theorem vertex_dot (oc d : Vec3) (hm : d.length_squared ≠ 0) :
    (oc + (-(oc.dot d) / d.length_squared) • d).dot d = 0 := by
  cases oc; cases d
  unfold Vec3.dot Vec3.length_squared at *
  rw [Vec3.smul_def, Vec3.add_def]
  field_simp
  ring

/-- One-component core of the tangency argument. -/
theorem tangent_comp_strict {wa wb wc da db dc ρ : ℚ} (hρ : 0 < ρ)
    (hsum : wa ^ 2 + wb ^ 2 + wc ^ 2 = ρ ^ 2)
    (hdot : wa * da + wb * db + wc * dc = 0)
    (hda : da ≠ 0) : wa ^ 2 < ρ ^ 2 := by
  by_contra hcon
  push_neg at hcon
  have hb2 : wb ^ 2 = 0 :=
    le_antisymm (by nlinarith [sq_nonneg wc]) (sq_nonneg wb)
  have hc2 : wc ^ 2 = 0 :=
    le_antisymm (by nlinarith [sq_nonneg wb]) (sq_nonneg wc)
  have hb : wb = 0 := sq_eq_zero_iff.mp hb2
  have hc : wc = 0 := sq_eq_zero_iff.mp hc2
  rw [hb, hc] at hdot hsum
  have hwa : wa ≠ 0 := by
    intro h0
    rw [h0] at hsum
    nlinarith
  have hz : wa * da = 0 := by linarith
  exact hda ((mul_eq_zero.mp hz).resolve_left hwa)

/-- Tangency forces the touching point off every axis wall whose direction
component is nonzero. -/
theorem tangent_axis_strict (w d : Vec3) (ρ : ℚ) (hρ : 0 < ρ)
    (hsum : w.length_squared = ρ ^ 2) (hdot : w.dot d = 0) :
    ∀ a, a < 3 → d.axis a ≠ 0 → (w.axis a) ^ 2 < ρ ^ 2 := by
  intro a ha hda
  cases w with
  | mk wx wy wz =>
    cases d with
    | mk dx dy dz =>
      simp only [Vec3.length_squared] at hsum
      simp only [Vec3.dot] at hdot
      interval_cases a <;> simp only [Vec3.axis] at hda ⊢ <;>
        norm_num at hda ⊢
      · exact tangent_comp_strict hρ hsum hdot hda
      · exact @tangent_comp_strict wy wx wz dy dx dz ρ hρ (by linarith)
          (by linarith) hda
      · exact @tangent_comp_strict wz wx wy dz dx dy ρ hρ (by linarith)
          (by linarith) hda

/-- A box containing a ball the ray's line meets (in the closed sense) is
never rejected by the slab test. -/
theorem ball_hit_some (bb : AABB) (ray : Ray) (cc : Vec3) (ρ q : ℚ)
    (hρ : 0 < ρ) (hdist : distSq (ray.atP q) cc ≤ ρ ^ 2)
    (hsub : AABB.subBox (ballBox cc ρ) bb) :
    AABB.hit bb ray ≠ none := by
  apply aabb_hit_of_pair
  by_cases hm0 : ray.direction.length_squared = 0
  · have hdz : ray.direction = Vec3.zero :=
      Vec3.length_squared_eq_zero_iff.mp hm0
    have hall : ∀ t : ℚ, ray.atP t = ray.atP q := by
      intro t
      unfold Ray.atP
      rw [hdz]
      simp [Vec3.zero, Vec3.new, Vec3.smul_def]
    refine ⟨q, q + 1, by linarith, inBox_of_distSq hρ.le hsub hdist, ?_⟩
    rw [hall (q + 1)]
    exact inBox_of_distSq hρ.le hsub hdist
  · set m := ray.direction.length_squared with hmdef
    have hm : 0 < m :=
      lt_of_le_of_ne (Vec3.length_squared_nonneg _) (Ne.symm hm0)
    set oc := ray.origin - cc with hocdef
    set al := oc.dot ray.direction with haldef
    set ts := -al / m with htsdef
    have hg : ∀ t : ℚ, distSq (ray.atP t) cc
        = (oc + t • ray.direction).length_squared := by
      intro t
      unfold distSq
      rw [atP_sub]
    have hquad : ∀ t : ℚ, distSq (ray.atP t) cc
        = distSq (ray.atP ts) cc + (t + al / m) ^ 2 * m := by
      intro t
      rw [hg t, hg ts]
      exact quad_vertex oc ray.direction hm0 t
    rcases eq_or_ne q ts with hq | hq
    · rcases lt_or_eq_of_le hdist with hlt | htan
      · -- strictly interior touching point: advance by a small positive step
        set A := (ρ ^ 2 - distSq (ray.atP q) cc) / m with hAdef
        have hA : 0 < A := div_pos (by linarith) hm
        set δ := min 1 A with hddef
        have hδ : 0 < δ := lt_min one_pos hA
        refine ⟨q, q + δ, by linarith,
          inBox_of_distSq hρ.le hsub hdist, ?_⟩
        apply inBox_of_distSq hρ.le hsub
        have h1 : distSq (ray.atP (q + δ)) cc
            = distSq (ray.atP ts) cc + (q + δ + al / m) ^ 2 * m := hquad _
        have h0 : distSq (ray.atP q) cc = distSq (ray.atP ts) cc := by
          rw [hq]
        have hqts : q + al / m = 0 := by
          rw [hq, htsdef]
          ring
        have hsq : (q + δ + al / m) ^ 2 = δ ^ 2 := by
          have he : q + δ + al / m = δ := by linarith [hqts]
          rw [he]
        have hδA : δ ^ 2 ≤ A := by
          have h2 : δ * δ ≤ 1 * A :=
            mul_le_mul (min_le_left _ _) (min_le_right _ _) hδ.le zero_le_one
          calc δ ^ 2 = δ * δ := pow_two δ
            _ ≤ 1 * A := h2
            _ = A := one_mul A
        have hAm : A * m = ρ ^ 2 - distSq (ray.atP q) cc :=
          div_mul_cancel₀ _ hm0
        have h3 : δ ^ 2 * m ≤ A * m := mul_le_mul_of_nonneg_right hδA hm.le
        rw [h1, hsq, ← h0]
        linarith
      · -- tangential touching point: move along the ray, staying in the box
        set w := ray.atP q - cc with hwdef
        have hwls : w.length_squared = ρ ^ 2 := htan
        have hwoc : w = oc + ts • ray.direction := by
          rw [hwdef, atP_sub, hq]
        have hwdot : w.dot ray.direction = 0 := by
          rw [hwoc]
          exact vertex_dot oc ray.direction hm0
        have hstrict := tangent_axis_strict w ray.direction ρ hρ hwls hwdot
        set e : ℕ → ℚ := fun a =>
          if ray.direction.axis a = 0 then 1
          else (ρ - |w.axis a|) / |ray.direction.axis a| with hedef
        have hepos : ∀ a, a < 3 → 0 < e a := by
          intro a ha
          simp only [hedef]
          split_ifs with hda
          · exact one_pos
          · apply div_pos
            · have := abs_lt_of_sq_lt (hstrict a ha hda) hρ.le
              linarith
            · exact abs_pos.mpr hda
        set δ := min (min (e 0) (e 1)) (e 2) with hddef
        have hδ : 0 < δ :=
          lt_min (lt_min (hepos 0 (by omega)) (hepos 1 (by omega)))
            (hepos 2 (by omega))
        have hδle : ∀ a, a < 3 → δ ≤ e a := by
          intro a ha
          interval_cases a
          · exact le_trans (min_le_left _ _) (min_le_left _ _)
          · exact le_trans (min_le_left _ _) (min_le_right _ _)
          · exact min_le_right _ _
        refine ⟨q, q + δ, by linarith,
          inBox_of_distSq hρ.le hsub hdist, ?_⟩
        apply inBox_of_ball hsub
        intro a ha
        have haxis : (ray.atP (q + δ)).axis a - cc.axis a
            = w.axis a + δ * ray.direction.axis a := by
          rw [atP_axis, hwdef, Vec3.axis_sub, atP_axis]
          ring
        rw [haxis]
        have hwax : (w.axis a) ^ 2 ≤ ρ ^ 2 := by
          calc (w.axis a) ^ 2
              = ((ray.atP q).axis a - cc.axis a) ^ 2 := by
                rw [hwdef, Vec3.axis_sub]
            _ ≤ distSq (ray.atP q) cc := distSq_axis_le _ _ _
            _ = ρ ^ 2 := htan
        by_cases hda : ray.direction.axis a = 0
        · rw [hda, mul_zero, add_zero]
          exact abs_bounds_of_sq_le hwax hρ.le
        · have hea : e a = (ρ - |w.axis a|) / |ray.direction.axis a| := by
            simp only [hedef]
            rw [if_neg hda]
          have hdle : δ ≤ (ρ - |w.axis a|) / |ray.direction.axis a| :=
            hea ▸ hδle a ha
          have habs : |w.axis a + δ * ray.direction.axis a| ≤ ρ := by
            have h3 := mul_le_mul_of_nonneg_right hdle
              (abs_nonneg (ray.direction.axis a))
            rw [div_mul_cancel₀ _ (ne_of_gt (abs_pos.mpr hda))] at h3
            calc |w.axis a + δ * ray.direction.axis a|
                ≤ |w.axis a| + |δ * ray.direction.axis a| := abs_add _ _
              _ = |w.axis a| + δ * |ray.direction.axis a| := by
                  rw [abs_mul, abs_of_pos hδ]
              _ ≤ |w.axis a| + (ρ - |w.axis a|) := by linarith
              _ = ρ := by ring
          exact abs_le.mp habs
    · -- touching point away from the vertex: the vertex is a second point
      have hts : distSq (ray.atP ts) cc ≤ ρ ^ 2 := by
        have h1 := hquad q
        have h2 : 0 ≤ (q + al / m) ^ 2 * m :=
          mul_nonneg (sq_nonneg _) hm.le
        linarith
      rcases le_total q ts with hle | hle
      · exact ⟨q, ts, lt_of_le_of_ne hle hq,
          inBox_of_distSq hρ.le hsub hdist, inBox_of_distSq hρ.le hsub hts⟩
      · exact ⟨ts, q, lt_of_le_of_ne hle (Ne.symm hq),
          inBox_of_distSq hρ.le hsub hts, inBox_of_distSq hρ.le hsub hdist⟩

theorem F.ble_fin_of_not_blt {a b : ℚ}
    (h : ¬ F.blt (F.fin a) (F.fin b) = true) :
    F.ble (F.fin b) (F.fin a) = true := by
  simp [F.blt] at h
  simp [F.ble]
  exact h

theorem F.ble_fin_refl (a : ℚ) : F.ble (F.fin a) (F.fin a) = true := by
  simp [F.ble]

/-- `Membership::exclusive` rejects every non-finite value. -/
theorem FRange.exclusive_not_fin (s e v : F) (h : ∀ q : ℚ, v ≠ F.fin q) :
    FRange.exclusive ⟨s, e⟩ v = false := by
  cases v with
  | nan => cases s <;> simp [FRange.exclusive, F.blt]
  | ninf => cases s <;> simp [FRange.exclusive, F.blt]
  | pinf => cases e <;> simp [FRange.exclusive, F.blt, Bool.and_eq_false_iff]
  | fin q => exact absurd rfl (h q)

theorem fdivQ_fin_den_ne_zero {n d q : ℚ} (h : fdivQ n d = F.fin q) :
    d ≠ 0 := by
  intro h0
  unfold fdivQ at h
  rw [if_pos h0] at h
  split_ifs at h

theorem fdivQ_of_den_ne_zero {n d : ℚ} (h : d ≠ 0) :
    fdivQ n d = F.fin (n / d) := by
  unfold fdivQ
  rw [if_neg h]

theorem wfList_wf_mem (objs : List Obj) (bb : AABB) :
    Obj.wfList objs bb → ∀ o ∈ objs, o.wf := by
  induction objs with
  | nil => intro _ o ho; exact absurd ho (List.not_mem_nil _)
  | cons a rest ih =>
    intro h o ho
    rcases List.mem_cons.mp ho with rfl | hr
    · exact h.1.1
    · exact ih h.2 o hr

/-- Behaviour of `Sphere::calculate_hit` in terms of the candidate roots:
a miss means no root lies strictly inside the range; a hit returns the
least root strictly inside the range. -/
theorem calculate_hit_spec (uv : Vec3 → ℚ × ℚ) (r : ℚ) (mat : ℕ)
    (ray : Ray) (s e : F) (center : Vec3) :
    (Sphere.calculate_hit uv r mat ray ⟨s, e⟩ center = none →
        ∀ v ∈ sphereRoots center r ray, ¬ exIn s e v)
    ∧ (∀ rec, Sphere.calculate_hit uv r mat ray ⟨s, e⟩ center = some rec →
        rec.t ∈ sphereRoots center r ray ∧ exIn s e rec.t
          ∧ ∀ v ∈ sphereRoots center r ray, exIn s e v →
              F.ble rec.t v = true) := by
  simp only [Sphere.calculate_hit, sphereRoots]
  set oc := ray.origin - center with hoc
  set m := ray.direction.length_squared with hmdef
  set al := oc.dot ray.direction with haldef
  set disc := al ^ 2 - m * (oc.length_squared - r ^ 2) with hdiscdef
  by_cases hd : disc < 0
  · simp only [if_pos hd]
    exact ⟨fun _ v hv => absurd hv (List.not_mem_nil _),
      fun rec hrec => by exact absurd hrec (by simp)⟩
  · simp only [if_neg hd]
    set rt1 := fdivQ (-al - ratSqrt disc) m with hrt1
    set rt2 := fdivQ (-al + ratSqrt disc) m with hrt2
    by_cases hx1 : FRange.exclusive ⟨s, e⟩ rt1 = true
    · simp only [if_pos hx1]
      constructor
      · intro hnone
        exact absurd hnone (by simp)
      · intro rec hrec
        have hrt : rec.t = rt1 := by
          have := Option.some.inj hrec
          rw [← this]
        obtain ⟨q1, hq1⟩ := exIn_fin ((exclusive_iff_exIn s e rt1).mp hx1)
        have hm0 : m ≠ 0 := fdivQ_fin_den_ne_zero (hrt1 ▸ hq1)
        have hmpos : 0 < m :=
          lt_of_le_of_ne (Vec3.length_squared_nonneg _) (Ne.symm hm0)
        refine ⟨by rw [hrt]; exact List.mem_cons_self _ _,
          by rw [hrt]; exact (exclusive_iff_exIn s e rt1).mp hx1, ?_⟩
        intro v hv hvIn
        rcases List.mem_cons.mp hv with rfl | hv2
        · rw [hrt, hq1]
          exact F.ble_fin_refl q1
        · rcases List.mem_cons.mp hv2 with rfl | hv3
          · -- the second root is at least the first
            rw [hrt, hrt1, hrt2, fdivQ_of_den_ne_zero hm0,
              fdivQ_of_den_ne_zero hm0]
            simp only [F.ble, decide_eq_true_eq]
            have hnum : -al - ratSqrt disc ≤ -al + ratSqrt disc := by
              linarith [ratSqrt_nonneg disc]
            exact (div_le_div_iff_of_pos_right hmpos).mpr hnum
          · exact absurd hv3 (List.not_mem_nil _)
    · simp only [if_neg hx1]
      by_cases hx2 : FRange.exclusive ⟨s, e⟩ rt2 = true
      · simp only [if_pos hx2]
        constructor
        · intro hnone
          exact absurd hnone (by simp)
        · intro rec hrec
          have hrt : rec.t = rt2 := by
            have := Option.some.inj hrec
            rw [← this]
          refine ⟨?_, ?_, ?_⟩
          · rw [hrt]
            exact List.mem_cons_of_mem _ (List.mem_cons_self _ _)
          · rw [hrt]
            exact (exclusive_iff_exIn s e rt2).mp hx2
          intro v hv hvIn
          rcases List.mem_cons.mp hv with rfl | hv2
          · exact absurd ((exclusive_iff_exIn s e rt1).mpr hvIn) hx1
          · rcases List.mem_cons.mp hv2 with rfl | hv3
            · obtain ⟨q2, hq2⟩ := exIn_fin hvIn
              rw [hrt, hq2]
              exact F.ble_fin_refl q2
            · exact absurd hv3 (List.not_mem_nil _)
      · simp only [if_neg hx2]
        constructor
        · intro _ v hv hvIn
          rcases List.mem_cons.mp hv with rfl | hv2
          · exact hx1 ((exclusive_iff_exIn s e rt1).mpr hvIn)
          · rcases List.mem_cons.mp hv2 with rfl | hv3
            · exact hx2 ((exclusive_iff_exIn s e rt2).mpr hvIn)
            · exact absurd hv3 (List.not_mem_nil _)
        · intro rec hrec
          exact absurd hrec (by simp)

mutual

/-- Behaviour of `Hittable::hit` for well-formed objects (ray time in
`[0, 1]`): a miss means no candidate parameter lies strictly inside the
range, and a hit record carries the least candidate strictly inside the
range.  The node case uses the geometric soundness of the box pruning. -/
theorem hit_spec (uv : Vec3 → ℚ × ℚ) (o : Obj) (ray : Ray) (hwf : o.wf)
    (ht0 : 0 ≤ ray.time) (ht1 : ray.time ≤ 1) (s e : F) :
    (Obj.hit uv o ray ⟨s, e⟩ = none → ∀ v ∈ o.cands ray, ¬ exIn s e v)
    ∧ (∀ rec, Obj.hit uv o ray ⟨s, e⟩ = some rec →
        rec.t ∈ o.cands ray ∧ exIn s e rec.t
          ∧ ∀ v ∈ o.cands ray, exIn s e v → F.ble rec.t v = true) := by
  match o with
  | .sphere c r mat =>
    simp only [Obj.hit, Obj.cands]
    exact calculate_hit_spec uv r mat ray s e c
  | .msphere c r mat d =>
    simp only [Obj.hit, Obj.cands]
    exact calculate_hit_spec uv r mat ray s e _
  | .list objs bb =>
    simp only [Obj.hit, Obj.cands]
    have h := hitList_spec uv objs ray (wfList_wf_mem objs bb hwf)
      ht0 ht1 s e none
    constructor
    · intro hn v hv hvIn
      exact (h.1 hn).2 v hv hvIn
    · intro rec hrec
      rcases h.2 rec hrec with hgood | ⟨hres, _⟩
      · exact hgood
      · exact absurd hres (by simp)
  | .node l rgt bb =>
    have hwfn : Obj.wf (.node l rgt bb) := hwf
    simp only [Obj.wf] at hwf
    obtain ⟨hwl, hwr, hsl, hsr⟩ := hwf
    simp only [Obj.hit, Obj.cands]
    by_cases hbox : (AABB.hit bb ray).isNone = true
    · simp only [if_pos hbox]
      constructor
      · intro _ v hv hvIn
        obtain ⟨q, rfl⟩ := exIn_fin hvIn
        obtain ⟨cc, ρ, hρ, hd2, hsub⟩ :=
          cands_in_ball (.node l rgt bb) ray hwfn ht0 ht1 q hv
        simp only [Obj.bounding_box] at hsub
        exact ball_hit_some bb ray cc ρ q hρ hd2 hsub
          (Option.isNone_iff_eq_none.mp hbox)
      · intro rec hrec
        exact absurd hrec (by simp)
    · simp only [if_neg hbox]
      have hl := hit_spec uv l ray hwl ht0 ht1 s e
      cases hhl : Obj.hit uv l ray ⟨s, e⟩ with
      | some rec1 =>
        dsimp only
        obtain ⟨hm1, hin1, hmin1⟩ := hl.2 rec1 hhl
        obtain ⟨q1, hq1⟩ := exIn_fin hin1
        have hr := hit_spec uv rgt ray hwr ht0 ht1 s rec1.t
        cases hhr : Obj.hit uv rgt ray ⟨s, rec1.t⟩ with
        | some rec2 =>
          dsimp only
          obtain ⟨hm2, hin2, hmin2⟩ := hr.2 rec2 hhr
          have hlt21 : F.blt rec2.t rec1.t = true := hin2.2
          constructor
          · intro hcon
            exact absurd hcon (by simp)
          · intro rec hrec
            obtain rfl : rec2 = rec := Option.some.inj hrec
            refine ⟨List.mem_append_right _ hm2,
              ⟨hin2.1, F.blt_trans hlt21 hin1.2⟩, ?_⟩
            intro v hv hvIn
            rcases List.mem_append.mp hv with hvl | hvr
            · exact F.ble_trans (F.ble_of_blt hlt21) (hmin1 v hvl hvIn)
            · obtain ⟨qv, hqv⟩ := exIn_fin hvIn
              by_cases hvc : F.blt v rec1.t = true
              · exact hmin2 v hvr ⟨hvIn.1, hvc⟩
              · have hble : F.ble rec1.t v = true := by
                  rw [hq1, hqv]
                  rw [hq1, hqv] at hvc
                  exact F.ble_fin_of_not_blt hvc
                exact F.ble_trans (F.ble_of_blt hlt21) hble
        | none =>
          dsimp only
          constructor
          · intro hcon
            exact absurd hcon (by simp)
          · intro rec hrec
            obtain rfl : rec1 = rec := Option.some.inj hrec
            refine ⟨List.mem_append_left _ hm1, hin1, ?_⟩
            intro v hv hvIn
            rcases List.mem_append.mp hv with hvl | hvr
            · exact hmin1 v hvl hvIn
            · obtain ⟨qv, hqv⟩ := exIn_fin hvIn
              by_cases hvc : F.blt v rec1.t = true
              · exact absurd ⟨hvIn.1, hvc⟩ (hr.1 hhr v hvr)
              · rw [hq1, hqv]
                rw [hq1, hqv] at hvc
                exact F.ble_fin_of_not_blt hvc
      | none =>
        dsimp only
        have hnl := hl.1 hhl
        have hr := hit_spec uv rgt ray hwr ht0 ht1 s e
        constructor
        · intro hn v hv hvIn
          rcases List.mem_append.mp hv with hvl | hvr
          · exact hnl v hvl hvIn
          · exact hr.1 hn v hvr hvIn
        · intro rec hrec
          obtain ⟨hm2, hin2, hmin2⟩ := hr.2 rec hrec
          refine ⟨List.mem_append_right _ hm2, hin2, ?_⟩
          intro v hv hvIn
          rcases List.mem_append.mp hv with hvl | hvr
          · exact absurd hvIn (hnl v hvl)
          · exact hmin2 v hvr hvIn

/-- Behaviour of the `HittableList::hit` fold: threading the closest hit so
far through the members produces the least candidate strictly inside the
original range, or leaves the incoming result untouched. -/
theorem hitList_spec (uv : Vec3 → ℚ × ℚ) (objs : List Obj) (ray : Ray)
    (hwf : ∀ o ∈ objs, o.wf)
    (ht0 : 0 ≤ ray.time) (ht1 : ray.time ≤ 1) (s c : F)
    (res : Option HitRecord) :
    (Obj.hitList uv objs ray s c res = none →
        res = none ∧ ∀ v ∈ Obj.candsList objs ray, ¬ exIn s c v)
    ∧ (∀ rec, Obj.hitList uv objs ray s c res = some rec →
        (rec.t ∈ Obj.candsList objs ray ∧ exIn s c rec.t
          ∧ ∀ v ∈ Obj.candsList objs ray, exIn s c v → F.ble rec.t v = true)
        ∨ (res = some rec ∧ ∀ v ∈ Obj.candsList objs ray, ¬ exIn s c v)) := by
  match objs with
  | [] =>
    simp only [Obj.hitList, Obj.candsList]
    exact ⟨fun h => ⟨h, fun v hv => absurd hv (List.not_mem_nil _)⟩,
      fun rec h => Or.inr ⟨h, fun v hv => absurd hv (List.not_mem_nil _)⟩⟩
  | o :: rest =>
    have hwo : o.wf := hwf o (List.mem_cons_self _ _)
    have hwrest : ∀ o' ∈ rest, o'.wf :=
      fun o' ho' => hwf o' (List.mem_cons_of_mem _ ho')
    have ho := hit_spec uv o ray hwo ht0 ht1 s c
    simp only [Obj.hitList, Obj.candsList]
    cases hho : Obj.hit uv o ray ⟨s, c⟩ with
    | some r1 =>
      dsimp only
      obtain ⟨hm1, hin1, hmin1⟩ := ho.2 r1 hho
      obtain ⟨q1, hq1⟩ := exIn_fin hin1
      have ih := hitList_spec uv rest ray hwrest ht0 ht1 s r1.t (some r1)
      constructor
      · intro hn
        obtain ⟨hres, _⟩ := ih.1 hn
        exact absurd hres (by simp)
      · intro rec hrec
        rcases ih.2 rec hrec with ⟨hm2, hin2, hmin2⟩ | ⟨hres, hnone2⟩
        · left
          have hlt21 : F.blt rec.t r1.t = true := hin2.2
          refine ⟨List.mem_append_right _ hm2,
            ⟨hin2.1, F.blt_trans hlt21 hin1.2⟩, ?_⟩
          intro v hv hvIn
          rcases List.mem_append.mp hv with hvl | hvr
          · exact F.ble_trans (F.ble_of_blt hlt21) (hmin1 v hvl hvIn)
          · obtain ⟨qv, hqv⟩ := exIn_fin hvIn
            by_cases hvc : F.blt v r1.t = true
            · exact hmin2 v hvr ⟨hvIn.1, hvc⟩
            · have hble : F.ble r1.t v = true := by
                rw [hq1, hqv]
                rw [hq1, hqv] at hvc
                exact F.ble_fin_of_not_blt hvc
              exact F.ble_trans (F.ble_of_blt hlt21) hble
        · obtain rfl : r1 = rec := Option.some.inj hres
          left
          refine ⟨List.mem_append_left _ hm1, hin1, ?_⟩
          intro v hv hvIn
          rcases List.mem_append.mp hv with hvl | hvr
          · exact hmin1 v hvl hvIn
          · obtain ⟨qv, hqv⟩ := exIn_fin hvIn
            by_cases hvc : F.blt v r1.t = true
            · exact absurd ⟨hvIn.1, hvc⟩ (hnone2 v hvr)
            · rw [hq1, hqv]
              rw [hq1, hqv] at hvc
              exact F.ble_fin_of_not_blt hvc
    | none =>
      dsimp only
      have hnone1 := ho.1 hho
      have ih := hitList_spec uv rest ray hwrest ht0 ht1 s c res
      constructor
      · intro hn
        obtain ⟨hres, hrest⟩ := ih.1 hn
        refine ⟨hres, ?_⟩
        intro v hv
        rcases List.mem_append.mp hv with hvl | hvr
        · exact hnone1 v hvl
        · exact hrest v hvr
      · intro rec hrec
        rcases ih.2 rec hrec with ⟨hm2, hin2, hmin2⟩ | ⟨hres, hnone2⟩
        · left
          refine ⟨List.mem_append_right _ hm2, hin2, ?_⟩
          intro v hv hvIn
          rcases List.mem_append.mp hv with hvl | hvr
          · exact absurd hvIn (hnone1 v hvl)
          · exact hmin2 v hvr hvIn
        · right
          refine ⟨hres, ?_⟩
          intro v hv
          rcases List.mem_append.mp hv with hvl | hvr
          · exact hnone1 v hvl
          · exact hnone2 v hvr

end

/-- C2 (amended): for a nonempty collection of well-formed objects (nonzero
sphere radii, containment-correct stored boxes) and a ray with time in
`[0, 1]`, traversing the BVH built by `BVHNode::from_vec` yields a hit at
exactly the same parameter `t` as the linear scan of `HittableList::hit`,
and misses exactly when the linear scan misses.  (Only the parameter is
preserved: on exact ties the two traversals may return records of
different spheres, see the counterexample.) -/
theorem bvh_hit_equiv_linear (uv : Vec3 → ℚ × ℚ) (objects : List Obj)
    (ray : Ray) (trange : FRange)
    (hne : 1 ≤ objects.length) (hwf : ∀ o ∈ objects, o.wf)
    (ht0 : 0 ≤ ray.time) (ht1 : ray.time ≤ 1) :
    Option.map HitRecord.t
        (Obj.hit uv (BVHNode.from_vec objects) ray trange)
      = Option.map HitRecord.t (HittableList.hit uv objects ray trange) := by
  obtain ⟨s, e⟩ := trange
  have hspec := inner_from_vec_spec objects.length objects 0 0
    (by omega) (by omega)
  have htwf : (BVHNode.from_vec objects).wf :=
    hspec.2.2.1 (by simpa using hwf)
  have hperm := hspec.2.2.2 ray
  simp only [List.drop_zero] at hperm
  have htree := hit_spec uv (BVHNode.from_vec objects) ray htwf ht0 ht1 s e
  have hlin := hitList_spec uv objects ray hwf ht0 ht1 s e none
  show Option.map HitRecord.t
        (Obj.hit uv (BVHNode.from_vec objects) ray ⟨s, e⟩)
      = Option.map HitRecord.t (Obj.hitList uv objects ray s e none)
  cases hT : Obj.hit uv (BVHNode.from_vec objects) ray ⟨s, e⟩ with
  | none =>
    have hnone := htree.1 hT
    cases hL : Obj.hitList uv objects ray s e none with
    | none => rfl
    | some rL =>
      rcases hlin.2 rL hL with ⟨hm, hin, _⟩ | ⟨habs, _⟩
      · exact absurd hin (hnone rL.t (hperm.mem_iff.mpr hm))
      · exact absurd habs (by simp)
  | some rT =>
    obtain ⟨hmT, hinT, hminT⟩ := htree.2 rT hT
    cases hL : Obj.hitList uv objects ray s e none with
    | none =>
      have hnone := (hlin.1 hL).2
      exact absurd hinT (hnone rT.t (hperm.mem_iff.mp hmT))
    | some rL =>
      rcases hlin.2 rL hL with ⟨hmL, hinL, hminL⟩ | ⟨habs, _⟩
      · have h1 : F.ble rT.t rL.t = true :=
          hminT rL.t (hperm.mem_iff.mpr hmL) hinL
        have h2 : F.ble rL.t rT.t = true :=
          hminL rT.t (hperm.mem_iff.mp hmT) hinT
        obtain ⟨qT, hqT⟩ := exIn_fin hinT
        have heq : rT.t = rL.t :=
          F.ble_antisymm (by rw [hqT]; intro h; exact F.noConfusion h) h1 h2
        simp only [Option.map, heq]
      · exact absurd habs (by simp)


/-- C2 (counterexample): two identical spheres carrying different material
indices, both hit at exactly the same parameter `t = 4`.  The linear scan
keeps the first sphere's record (the second sphere's equal root is rejected
by the strict upper bound of the shrunken range), while the BVH built from
the same list visits the popped-last sphere first and keeps its record.
The two traversals return different hit records — materials 0 and 1 — so
BVH traversal does not produce the same result as the linear scan. -/
theorem bvh_linear_material_differs :
    Obj.hit uvZero (BVHNode.from_vec [tieSphere0, tieSphere1]) tieRay
        epsRange
      ≠ HittableList.hit uvZero [tieSphere0, tieSphere1] tieRay epsRange := by
  have hs1full : Sphere.calculate_hit uvZero 1 1 tieRay
      ⟨F.fin (1 / 1000000), F.pinf⟩ (Vec3.new 0 0 0)
      = some ⟨Vec3.new 0 0 1, Vec3.new 0 0 1, 1, F.fin 4, 0, 0, true⟩ := by
    norm_num [Sphere.calculate_hit, tieRay, Ray.new,
      Vec3.new, Ray.atP, Vec3.sub_def, Vec3.add_def, Vec3.smul_def,
      Vec3.dot, Vec3.length_squared, Vec3.div_def, fdivQ, FRange.exclusive,
      F.blt, uvZero, F.toRat, ratSqrt, Rat.num_one, Rat.den_one,
      show Int.toNat 1 = 1 from rfl, show isqrt 1 = 1 from by decide]
  have hs0full : Sphere.calculate_hit uvZero 1 0 tieRay
      ⟨F.fin (1 / 1000000), F.pinf⟩ (Vec3.new 0 0 0)
      = some ⟨Vec3.new 0 0 1, Vec3.new 0 0 1, 0, F.fin 4, 0, 0, true⟩ := by
    norm_num [Sphere.calculate_hit, tieRay, Ray.new,
      Vec3.new, Ray.atP, Vec3.sub_def, Vec3.add_def, Vec3.smul_def,
      Vec3.dot, Vec3.length_squared, Vec3.div_def, fdivQ, FRange.exclusive,
      F.blt, uvZero, F.toRat, ratSqrt, Rat.num_one, Rat.den_one,
      show Int.toNat 1 = 1 from rfl, show isqrt 1 = 1 from by decide]
  have hs0cut : Sphere.calculate_hit uvZero 1 0 tieRay
      ⟨F.fin (1 / 1000000), F.fin 4⟩ (Vec3.new 0 0 0) = none := by
    norm_num [Sphere.calculate_hit, tieRay, Ray.new,
      Vec3.new, Ray.atP, Vec3.sub_def, Vec3.add_def, Vec3.smul_def,
      Vec3.dot, Vec3.length_squared, Vec3.div_def, fdivQ, FRange.exclusive,
      F.blt, uvZero, F.toRat, ratSqrt, Rat.num_one, Rat.den_one,
      show Int.toNat 1 = 1 from rfl, show isqrt 1 = 1 from by decide]
  have hs1cut : Sphere.calculate_hit uvZero 1 1 tieRay
      ⟨F.fin (1 / 1000000), F.fin 4⟩ (Vec3.new 0 0 0) = none := by
    norm_num [Sphere.calculate_hit, tieRay, Ray.new,
      Vec3.new, Ray.atP, Vec3.sub_def, Vec3.add_def, Vec3.smul_def,
      Vec3.dot, Vec3.length_squared, Vec3.div_def, fdivQ, FRange.exclusive,
      F.blt, uvZero, F.toRat, ratSqrt, Rat.num_one, Rat.den_one,
      show Int.toNat 1 = 1 from rfl, show isqrt 1 = 1 from by decide]
  have hbox : (AABB.hit
      (AABB.from_boxes tieSphere1.bounding_box tieSphere0.bounding_box)
      tieRay).isNone = false := by
    norm_num [AABB.hit, AABB.slab, AABB.axis, invQ, mulQF, Vec3.axis,
      tieRay, tieSphere0, tieSphere1, Obj.bounding_box, AABB.from_boxes,
      AABB.from_vecs, QRange.union, qmin, qmax, Ray.new, Vec3.new,
      Vec3.sub_def, Vec3.add_def, F.rmax, F.rmin, F.blt, F.ble,
      F.rmax_def, F.rmin_def]
  have hB : Obj.hit uvZero (BVHNode.from_vec [tieSphere0, tieSphere1])
      tieRay epsRange
      = some ⟨Vec3.new 0 0 1, Vec3.new 0 0 1, 1, F.fin 4, 0, 0, true⟩ := by
    rw [show BVHNode.from_vec [tieSphere0, tieSphere1]
      = Obj.node tieSphere1 tieSphere0
          (AABB.from_boxes tieSphere1.bounding_box tieSphere0.bounding_box)
      from rfl]
    simp only [Obj.hit, epsRange, hbox, Bool.false_eq_true, if_false]
    rw [hs1full]
    simp only [hs0cut]
  have hL : HittableList.hit uvZero [tieSphere0, tieSphere1] tieRay epsRange
      = some ⟨Vec3.new 0 0 1, Vec3.new 0 0 1, 0, F.fin 4, 0, 0, true⟩ := by
    simp only [HittableList.hit, Obj.hitList, Obj.hit, epsRange]
    rw [hs0full]
    simp only [hs1cut]
  rw [hB, hL]
  simp

/-- C2 (witness): the amended equivalence applied to the tie scene — the
hit parameter maps agree even though the records differ. -/
theorem bvh_hit_equiv_linear_witness :
    Option.map HitRecord.t
        (Obj.hit uvZero (BVHNode.from_vec [tieSphere0, tieSphere1])
          tieRay epsRange)
      = Option.map HitRecord.t
        (HittableList.hit uvZero [tieSphere0, tieSphere1] tieRay
          epsRange) :=
  bvh_hit_equiv_linear uvZero [tieSphere0, tieSphere1] tieRay epsRange
    (by norm_num)
    (by
      intro o ho
      simp only [List.mem_cons, List.not_mem_nil, or_false] at ho
      rcases ho with rfl | rfl <;>
        norm_num [tieSphere0, tieSphere1, Obj.wf])
    (by norm_num [tieRay, Ray.new])
    (by norm_num [tieRay, Ray.new])
